import Mathlib

/-!
Verification of the personal-knowledge retrieval backend (ingestion pipeline,
hybrid sparse/dense representation, two-stage retriever).

Strings are modelled as lists of characters (`Str`).  External collaborators
(the gpt tokenizer, the stop-word list, the md5 hash, the embedding service,
the LLM rewriter, the JSON parser of the JS runtime and the vector store's
scoring) are parameters of the definitions that use them; everything the
repository itself implements is translated statement by statement from the
TypeScript source.  JS loops that can diverge (the chunker's sentence-split
queue, splitToFit's bisection, safeEmbed's recursion) are modelled with a
fuel argument returning an `Option`; `none` models divergence, and the
JS runtime errors (indexing past the end of the window array) also map to
`none` where they abort the computation.

The file is organised as: all definitions first, then all theorems.
-/

namespace Spec2Proof

/-! # Definitions -/

/-- Characters of the JS string, in order. -/
abbrev Str := List Char

/-- Whitespace as used by the JS regexes in this code base (space, tab, LF, CR).
JS \s also covers rarer characters (form feed, unicode spaces); the source
only ever feeds it ordinary text, and all claims here are stated over the
characters the model covers. -/
def isWs (c : Char) : Bool :=
  c = ' ' || c = '\t' || c = '\n' || c = '\r'

/-- Left trim: drop leading whitespace (JS String.prototype.trim, left part). -/
def trimL (s : Str) : Str := s.dropWhile isWs

/-- Right trim. -/
def trimR (s : Str) : Str := (s.reverse.dropWhile isWs).reverse

/-- JS String.prototype.trim. -/
def trim (s : Str) : Str := trimR (trimL s)

/-- Does the string contain at least one non-whitespace character? -/
def hasNonWs (s : Str) : Bool := s.any (fun c => !isWs c)

/-- The paragraph separator string of the chunker templates `\n\n`. -/
def nl2 : Str := ['\n', '\n']

/-- JS Array.prototype.join with a separator. -/
def joinSep (sep : Str) : List Str → Str
  | [] => []
  | [x] => x
  | x :: y :: xs => x ++ sep ++ joinSep sep (y :: xs)

/-- Plain concatenation of a list of strings. -/
def joinPlain : List Str → Str
  | [] => []
  | x :: xs => x ++ joinPlain xs

/-- One-pass accumulator for `nonWsRuns`; `cur` is the current run reversed. -/
def nonWsRunsAux (cur : Str) : Str → List Str
  | [] => if cur.isEmpty then [] else [cur.reverse]
  | c :: cs =>
    if isWs c then
      if cur.isEmpty then nonWsRunsAux [] cs else cur.reverse :: nonWsRunsAux [] cs
    else nonWsRunsAux (c :: cur) cs

/-- Maximal runs of non-whitespace characters: the non-empty tokens of
`s.split(/\s+/)` after discarding empty strings (the source skips them). -/
def nonWsRuns (s : Str) : List Str := nonWsRunsAux [] s

/-- All whitespace removed (used to state the splitToFit concatenation contract). -/
def stripWs (s : Str) : Str := s.filter (fun c => !isWs c)

/-- Insert `x` before the first element of strictly smaller key: the stable
descending insertion underlying the JS `sort((a, b) => keyB - keyA)` calls. -/
def insDescBy {α : Type _} {β : Type _} [LinearOrder β] (k : α → β) (x : α) :
    List α → List α
  | [] => [x]
  | y :: ys => if k y < k x then x :: y :: ys else y :: insDescBy k x ys

/-- Stable sort by key, descending: the model of the JS sorts in this code
base (`sort((a, b) => b.count - a.count)` and friends).  JS guarantees a
stable sort whose output is ordered by the comparator; insertion sort is one
such sort. -/
def sortDescBy {α : Type _} {β : Type _} [LinearOrder β] (k : α → β) :
    List α → List α
  | [] => []
  | x :: xs => insDescBy k x (sortDescBy k xs)

/-! ## Tokenizer (src/lib/ai/tokenizer.ts)

`tokenLen` is the external gpt-tokenizer's exact token count; it appears as
a parameter `tok : Str → Nat` of everything below.  `splitToFit` is
translated literally; its while loop is run on fuel (the JS loop can spin
forever on a ≤ 1-character chunk that the abstract token measure keeps
rejecting; `none` models that divergence — the fuel `text.length + 2` is
enough for every terminating run since every other iteration strictly
shrinks the chunk). -/

/-- `chunk.lastIndexOf('.', pos)`: the largest index ≤ pos holding a dot. -/
def lastDotLE (s : Str) (pos : Nat) : Option Nat :=
  let pre := s.take (pos + 1)
  (pre.reverse.findIdx? (fun c => c = '.')).map (fun j => pre.length - 1 - j)

/-- The split index used by both `splitToFit` and `safeEmbed`:
`lastIndexOf('.', mid) > 100 ? lastIndexOf('.', mid) + 1 : mid`. -/
def splitIdx (s : Str) : Nat :=
  let mid := s.length / 2
  match lastDotLE s mid with
  | some i => if 100 < i then i + 1 else mid
  | none => mid

/-- The while loop of `splitToFit`, with the accumulated parts reversed. -/
def splitToFitAux (tok : Str → Nat) (ctx : Nat) : Nat → Str → List Str → Option (List Str)
  | 0, _, _ => none
  | fuel + 1, chunk, acc =>
    if tok chunk ≤ ctx then some ((chunk :: acc).reverse)
    else
      let idx := splitIdx chunk
      splitToFitAux tok ctx fuel (trim (chunk.drop idx)) (trim (chunk.take idx) :: acc)

/-- `splitToFit(text, ctx)` from src/lib/ai/tokenizer.ts. -/
def splitToFit (tok : Str → Nat) (text : Str) (ctx : Nat) : Option (List Str) :=
  splitToFitAux tok ctx (text.length + 2) text []

/-- Token measure used by the concrete counterexamples: the number of
whitespace-separated words.  (The real tokenizer is external; the claims are
quantified over the token measure.) -/
def wc (s : Str) : Nat := (nonWsRuns s).length

/-! ## Stop-word stripping (src/lib/ai/stopwords.ts)

`stripStops` splits on JS word boundaries (`text.split(/\b/)` yields the
maximal runs of word / non-word characters), removes the tokens the external
`stopword` package recognises (abstracted as the predicate `isStop`),
re-joins, collapses whitespace runs to single spaces, and trims. -/

/-- JS \w : ASCII letters, digits and underscore. -/
def isWordChar (c : Char) : Bool := c.isAlpha || c.isDigit || c = '_'

/-- One-pass accumulator for `wordRuns` (`cur` is the current run reversed). -/
def wordRunsAux (cur : Str) : Str → List Str
  | [] => if cur.isEmpty then [] else [cur.reverse]
  | c :: cs =>
    match cur with
    | [] => wordRunsAux [c] cs
    | d :: ds =>
      if isWordChar c = isWordChar d then wordRunsAux (c :: d :: ds) cs
      else (d :: ds).reverse :: wordRunsAux [c] cs

/-- `text.split(/\b/)`: maximal runs of characters of the same \w class. -/
def wordRuns (s : Str) : List Str := wordRunsAux [] s

/-- Accumulator for `collapseWs`; `prevWs` records whether the previous
character was whitespace already emitted as the run's single space. -/
def collapseWsAux (prevWs : Bool) : Str → Str
  | [] => []
  | c :: cs =>
    if isWs c then
      if prevWs then collapseWsAux true cs else ' ' :: collapseWsAux true cs
    else c :: collapseWsAux false cs

/-- `s.replace(/\s+/g, ' ')`. -/
def collapseWs (s : Str) : Str := collapseWsAux false s

/-- `stripStops(text)` from src/lib/ai/stopwords.ts, with the stop-word list
of the external `stopword` package abstracted as `isStop`. -/
def stripStops (isStop : Str → Bool) (text : Str) : Str :=
  trim (collapseWs (joinPlain ((wordRuns text).filter (fun t => !isStop t))))

/-! ## Sparse vectorizer (src/lib/ai/sparse.ts)

The md5-based 32-bit token hash is external (`node:crypto`); it is the
parameter `hashF`.  The JS frequency object enumerates its integer-like keys
in ascending numeric order (`Object.entries`), which `sortAscByKey` models;
the subsequent `sort((a, b) => b.count - a.count)` is the stable descending
sort `sortDescBy`. -/

/-- `freq[id] = (freq[id] ?? 0) + 1` on an association list: an existing key
keeps its position, a fresh key is appended. -/
def bumpNat (m : List (Nat × Nat)) (k : Nat) : List (Nat × Nat) :=
  if m.any (fun e => e.1 = k) then
    m.map (fun e => if e.1 = k then (e.1, e.2 + 1) else e)
  else m ++ [(k, 1)]

/-- Insert keeping ascending key order. -/
def insAscByKey (x : Nat × Nat) : List (Nat × Nat) → List (Nat × Nat)
  | [] => [x]
  | y :: ys => if x.1 < y.1 then x :: y :: ys else y :: insAscByKey x ys

/-- Enumeration of a JS object with integer-like keys: ascending key order. -/
def sortAscByKey : List (Nat × Nat) → List (Nat × Nat)
  | [] => []
  | x :: xs => insAscByKey x (sortAscByKey xs)

/-- `toSparseVector(text, maxTerms)` from src/lib/ai/sparse.ts, returning
the parallel arrays (indices, values). -/
def toSparseVector (hashF : Str → Nat) (isStop : Str → Bool) (text : Str)
    (maxTerms : Nat) : List Nat × List Nat :=
  let freq := (nonWsRuns (stripStops isStop text)).foldl (fun m t => bumpNat m (hashF t)) []
  let top := (sortDescBy (fun e => e.2) (sortAscByKey freq)).take maxTerms
  (top.map (fun e => e.1), top.map (fun e => e.2))

/-! ## Keyword extractor: the TF-IDF model (src/lib/ai/extract-keywords.ts)

`Math.log(documentCount / df)` is the JS float logarithm; it is abstracted
as the parameter `logFn : Nat → Nat → ℚ` (applied to documentCount and df).
The `stopword` package again appears as `isStop`.  JS `Map` iterates in
insertion order; maps are association lists in insertion order. -/

/-- Split at every occurrence of a separator character, keeping empty pieces
(JS String.prototype.split with a string separator). -/
def splitCharAux (sep : Char) (cur : Str) : Str → List Str
  | [] => [cur.reverse]
  | c :: cs =>
    if c = sep then cur.reverse :: splitCharAux sep [] cs
    else splitCharAux sep (c :: cur) cs

/-- `s.split(sep)` for a single-character separator. -/
def splitChar (sep : Char) (s : Str) : List Str := splitCharAux sep [] s

/-- `/^\d+$/.test(term)`: non-empty and all digits. -/
def isAllDigits (t : Str) : Bool := !t.isEmpty && t.all Char.isDigit

/-- `freq.set(k, (freq.get(k) || 0) + 1)` on an insertion-ordered map. -/
def bumpStr (m : List (Str × Nat)) (k : Str) : List (Str × Nat) :=
  if m.any (fun e => e.1 = k) then
    m.map (fun e => if e.1 = k then (e.1, e.2 + 1) else e)
  else m ++ [(k, 1)]

/-- `map.set(k, v)` on an insertion-ordered map: overwrite in place or append. -/
def setAssoc {α : Type _} (m : List (Str × α)) (k : Str) (v : α) : List (Str × α) :=
  if m.any (fun e => e.1 = k) then
    m.map (fun e => if e.1 = k then (k, v) else e)
  else m ++ [(k, v)]

/-- `map.get(k)`. -/
def getAssoc {α : Type _} (m : List (Str × α)) (k : Str) : Option α :=
  (m.find? (fun e => e.1 = k)).map (fun e => e.2)

/-- `extractTerms` of `SimpleTfIdf`: lowercase, replace non-word non-space
characters by spaces, collapse whitespace, trim, split on spaces, remove
stop-words, keep terms of length ≥ 2. -/
def extractTerms (isStop : Str → Bool) (text : Str) : List Str :=
  let lowered := text.map Char.toLower
  let replaced := lowered.map (fun c => if isWordChar c || isWs c then c else ' ')
  let normalized := trim (collapseWs replaced)
  let words := splitChar ' ' normalized
  (words.filter (fun w => !isStop w)).filter (fun t => 2 ≤ t.length)

/-- The state of `SimpleTfIdf` (src/lib/ai/extract-keywords.ts). -/
structure SimpleTfIdf where
  documents : List (Str × List (Str × Nat))
  documentFrequency : List (Str × Nat)
  documentCount : Nat
  built : Bool

/-- The freshly constructed model. -/
def SimpleTfIdf.init : SimpleTfIdf := ⟨[], [], 0, false⟩

/-- `addDocument(docId, text)`: resets the built flag, stores the term
frequencies, increments the document count. -/
def SimpleTfIdf.addDocument (isStop : Str → Bool) (m : SimpleTfIdf)
    (docId text : Str) : SimpleTfIdf :=
  let termFreq := (extractTerms isStop text).foldl bumpStr []
  { documents := setAssoc m.documents docId termFreq
    documentFrequency := m.documentFrequency
    documentCount := m.documentCount + 1
    built := false }

/-- `build()`: recompute document frequencies and set the built flag. -/
def SimpleTfIdf.build (m : SimpleTfIdf) : SimpleTfIdf :=
  let df := m.documents.foldl (fun df doc => doc.2.foldl (fun df e => bumpStr df e.1) df) []
  { m with documentFrequency := df, built := true }

/-- The error message thrown when the model is queried before `build()`. -/
def notBuiltMsg : Str := ("TF-IDF model not built. Call build() first." : String).data

/-- The numeric body of `tfIdf` once the built check passed. -/
def SimpleTfIdf.tfIdfVal (logFn : Nat → Nat → ℚ) (m : SimpleTfIdf)
    (docId term : Str) : ℚ :=
  match getAssoc m.documents docId with
  | none => 0
  | some termFreq =>
    let tf := (getAssoc termFreq term).getD 0
    if tf = 0 then 0
    else
      let df := (getAssoc m.documentFrequency term).getD 0
      if df = 0 then 0 else (tf : ℚ) * logFn m.documentCount df

/-- `tfIdf(docId, term)`: throws NotBuilt unless built. -/
def SimpleTfIdf.tfIdf (logFn : Nat → Nat → ℚ) (m : SimpleTfIdf)
    (docId term : Str) : Except Str ℚ :=
  if !m.built then Except.error notBuiltMsg
  else Except.ok (m.tfIdfVal logFn docId term)

/-- `getTopTerms(docId, n)`: throws NotBuilt unless built; otherwise scores
every stored term of the document, keeps terms of length ≥ 3 that are not
purely numeric, sorts by weight descending and takes the first n. -/
def SimpleTfIdf.getTopTerms (logFn : Nat → Nat → ℚ) (m : SimpleTfIdf)
    (docId : Str) (n : Nat) : Except Str (List (Str × ℚ)) :=
  if !m.built then Except.error notBuiltMsg
  else Except.ok <|
    match getAssoc m.documents docId with
    | none => []
    | some termFreq =>
      let termScores := termFreq.filterMap (fun e =>
        if 3 ≤ e.1.length ∧ isAllDigits e.1 = false then
          some (e.1, m.tfIdfVal logFn docId e.1)
        else none)
      (sortDescBy (fun p => p.2) termScores).take n

/-- An operation on the model, for stating the lifecycle property. -/
inductive TfOp
  | add (docId text : Str)
  | build

/-- Run a sequence of operations from the fresh model. -/
def runOps (isStop : Str → Bool) (ops : List TfOp) : SimpleTfIdf :=
  ops.foldl (fun m op =>
    match op with
    | TfOp.add d t => m.addDocument isStop d t
    | TfOp.build => m.build) SimpleTfIdf.init

/-- The spec's "build() has been called since the most recent addDocument":
some build occurs and no add follows it. -/
def buildSinceLastAdd (ops : List TfOp) : Prop :=
  ∃ pre post, ops = pre ++ TfOp.build :: post ∧ ∀ o ∈ post, ∀ d t, o ≠ TfOp.add d t

/-- Concrete stop-word predicate for witnesses: nothing is a stop-word. -/
def noStops : Str → Bool := fun _ => false

/-- Concrete log model for witnesses. -/
def logOne : Nat → Nat → ℚ := fun _ _ => 1

/-- Concrete op sequence for the C5 witness. -/
def opsC5 : List TfOp :=
  [TfOp.add (("doc" : String).data) (("alpha beta alpha" : String).data), TfOp.build]

/-! ## HTML-to-text normalizer (src/lib/readwiseSync.ts, extractTextFromHtml)

Each regex replace of the source is a scanner.  Scanners whose matches span
several characters run on fuel `length + 1` (every step consumes at least
one character, so the fuel is always enough; it only exists to make the
recursion structural). -/

/-- Case-insensitive character comparison against a lowercase target. -/
def lowEq (c t : Char) : Bool := c.toLower = t

/-- Space or tab (the JS character class `[ \t]`). -/
def isSpTab (c : Char) : Bool := c = ' ' || c = '\t'

/-- Generic scanner: at each position try the head matcher; on a match of
length n replace it by `rep` and continue after it, else copy one character. -/
def scanReplace (matchLen : Str → Option Nat) (rep : Str) : Nat → Str → Str
  | 0, s => s
  | _ + 1, [] => []
  | fuel + 1, c :: cs =>
    match matchLen (c :: cs) with
    | some n => rep ++ scanReplace matchLen rep fuel ((c :: cs).drop n)
    | none => c :: scanReplace matchLen rep fuel cs

/-- `s.replace(matcher, rep)` with a global regex given by a head matcher
whose matches are non-empty. -/
def replaceAll (matchLen : Str → Option Nat) (rep : Str) (s : Str) : Str :=
  scanReplace matchLen rep (s.length + 1) s

/-- Head match of `<br\s*\/?>` (case-insensitive), returning its length. -/
def brMatchLen (s : Str) : Option Nat :=
  match s with
  | '<' :: b :: r :: rest =>
    if lowEq b 'b' && lowEq r 'r' then
      let wsn := (rest.takeWhile isWs).length
      match rest.drop wsn with
      | '/' :: '>' :: _ => some (3 + wsn + 2)
      | '>' :: _ => some (3 + wsn + 1)
      | _ => none
    else none
  | _ => none

/-- Head match of a block tag name `p|div|h[1-6]|li` (case-insensitive). -/
def blockNameLen : Str → Option Nat
  | [] => none
  | c :: rest =>
    if lowEq c 'p' then some 1
    else if lowEq c 'd' then
      match rest with
      | i :: v :: _ => if lowEq i 'i' && lowEq v 'v' then some 3 else none
      | _ => none
    else if lowEq c 'h' then
      match rest with
      | d :: _ => if '1' ≤ d && d ≤ '6' then some 2 else none
      | _ => none
    else if lowEq c 'l' then
      match rest with
      | i :: _ => if lowEq i 'i' then some 2 else none
      | _ => none
    else none

/-- Head match of `<(?:p|div|h[1-6]|li)[^>]*>` (case-insensitive). -/
def openBlockLen (s : Str) : Option Nat :=
  match s with
  | '<' :: rest =>
    match blockNameLen rest with
    | some k =>
      let after := rest.drop k
      let gap := after.takeWhile (fun c => c ≠ '>')
      match after.drop gap.length with
      | '>' :: _ => some (1 + k + gap.length + 1)
      | _ => none
    | none => none
  | _ => none

/-- Head match of `</(?:p|div|h[1-6]|li)>` (case-insensitive). -/
def closeBlockLen (s : Str) : Option Nat :=
  match s with
  | '<' :: '/' :: rest =>
    match blockNameLen rest with
    | some k =>
      match rest.drop k with
      | '>' :: _ => some (2 + k + 1)
      | _ => none
    | none => none
  | _ => none

/-- Head match of `<[^>]+>`. -/
def anyTagLen (s : Str) : Option Nat :=
  match s with
  | '<' :: rest =>
    let gap := rest.takeWhile (fun c => c ≠ '>')
    if gap.isEmpty then none
    else
      match rest.drop gap.length with
      | '>' :: _ => some (1 + gap.length + 1)
      | _ => none
  | _ => none

/-- Case-insensitive literal head matcher. -/
def litCI (pat : Str) (s : Str) : Option Nat :=
  if (s.take pat.length).map Char.toLower = pat.map Char.toLower then some pat.length
  else none

/-- The six sequential entity replaces (step 3 of extractTextFromHtml). -/
def decodeEntities (s : Str) : Str :=
  let s1 := replaceAll (litCI (("&nbsp;" : String).data)) ((" " : String).data) s
  let s2 := replaceAll (litCI (("&amp;" : String).data)) (("&" : String).data) s1
  let s3 := replaceAll (litCI (("&lt;" : String).data)) (("<" : String).data) s2
  let s4 := replaceAll (litCI (("&gt;" : String).data)) ((">" : String).data) s3
  let s5 := replaceAll (litCI (("&quot;" : String).data)) (("\"" : String).data) s4
  replaceAll (litCI (("&#39;" : String).data)) (("'" : String).data) s5

/-- `s.replace(/\r\n?/g, '\n')`. -/
def normalizeCR : Str → Str
  | [] => []
  | '\r' :: '\n' :: cs => '\n' :: normalizeCR cs
  | '\r' :: cs => '\n' :: normalizeCR cs
  | c :: cs => c :: normalizeCR cs

/-- Accumulator for `s.replace(/[ \t]+(?=\n)/g, '')`: `pend` holds the
current space/tab run reversed; it is dropped when a newline follows. -/
def trimTrailAux (pend : Str) : Str → Str
  | [] => pend.reverse
  | c :: cs =>
    if isSpTab c then trimTrailAux (c :: pend) cs
    else if c = '\n' then '\n' :: trimTrailAux [] cs
    else pend.reverse ++ c :: trimTrailAux [] cs

/-- `s.replace(/[ \t]+(?=\n)/g, '')`. -/
def trimTrailBeforeNl (s : Str) : Str := trimTrailAux [] s

/-- What a space/tab run becomes under `[ \t]{2,}` → a single space. -/
def spTabEmit (pend : Str) : Str := if 2 ≤ pend.length then [' '] else pend.reverse

/-- Accumulator for `s.replace(/[ \t]{2,}/g, ' ')`. -/
def collapseSpTabAux (pend : Str) : Str → Str
  | [] => spTabEmit pend
  | c :: cs =>
    if isSpTab c then collapseSpTabAux (c :: pend) cs
    else spTabEmit pend ++ c :: collapseSpTabAux [] cs

/-- `s.replace(/[ \t]{2,}/g, ' ')`. -/
def collapseSpTab (s : Str) : Str := collapseSpTabAux [] s

/-- What a newline run becomes under `\n{3,}` → exactly two newlines. -/
def nlEmit (run : Nat) : Str := if 3 ≤ run then ['\n', '\n'] else List.replicate run '\n'

/-- Accumulator for `s.replace(/\n{3,}/g, '\n\n')`: `run` counts the current
newline run. -/
def collapseNlAux (run : Nat) : Str → Str
  | [] => nlEmit run
  | c :: cs =>
    if c = '\n' then collapseNlAux (run + 1) cs
    else nlEmit run ++ c :: collapseNlAux 0 cs

/-- `s.replace(/\n{3,}/g, '\n\n')`. -/
def collapseNl (s : Str) : Str := collapseNlAux 0 s

/-- `extractTextFromHtml(html)` from src/lib/readwiseSync.ts: the nine
transformation steps in source order, then trim. -/
def extractTextFromHtml (html : Str) : Str :=
  let t1 := replaceAll brMatchLen (("\n" : String).data) html
  let t2 := replaceAll openBlockLen (("\n\n" : String).data) t1
  let t3 := replaceAll closeBlockLen [] t2
  let t4 := replaceAll anyTagLen [] t3
  let t5 := decodeEntities t4
  let t6 := normalizeCR t5
  let t7 := trimTrailBeforeNl t6
  let t8 := collapseSpTab t7
  let t9 := collapseNl t8
  trim t9

/-- Three consecutive newlines occur somewhere in the string. -/
def hasTripleNl : Str → Bool
  | c1 :: c2 :: c3 :: rest =>
    (c1 = '\n' && c2 = '\n' && c3 = '\n') || hasTripleNl (c2 :: c3 :: rest)
  | _ => false

/-! ## Existing-id enumeration (src/lib/readwiseSync.ts, fetchExistingDocumentIds)

The network part (describeIndexStats, the zero-vector query) is external;
what the repository implements is the extraction of document ids from the
returned matches, modelled on the list of matches. -/

/-- A match returned by the vector store's zero-vector query: its record id
and the optional `doc_id` metadata field. -/
structure PineMatch where
  id : Str
  docId : Option Str

/-- `match.id.split('-')[0]`, skipped when falsy: the fallback derivation. -/
def dashHead (id : Str) : Option Str :=
  let h := id.takeWhile (fun c => c != '-')
  if h.isEmpty then none else some h

/-- The per-match id extraction of fetchExistingDocumentIds: the truthy
`metadata?.doc_id` wins, otherwise the pre-dash prefix of the record id. -/
def deriveDocId (m : PineMatch) : Option Str :=
  match m.docId with
  | some d => if d.isEmpty then dashHead m.id else some d
  | none => dashHead m.id

/-- The members of the `existingIds` set built from the query's matches
(the JS Set deduplicates; membership is what the sync consults). -/
def existingIdsFromMatches (ms : List PineMatch) : List Str :=
  ms.filterMap deriveDocId

/-! ## Query rewriter (src/lib/ai/readwise-search.ts, generateEnhancedQuery)

The Gemini call is external: `llm` is its outcome (response text or error).
`JSON.parse` plus the field accesses are the JS runtime's: the oracle
`jsonParse` returns the three fields when parsing succeeds (`none` covers
both a parse error and a field of the wrong type, each of which throws and
is caught by the same catch that returns the raw query). -/

/-- The three fields the rewriter reads from the parsed object. -/
structure GeminiParsed where
  optimizedQuery : Option Str
  relatedTopics : Option (List Str)
  tags : Option (List Str)

/-- An opening brace character. -/
def lbrace : Char := Char.ofNat 123

/-- A closing brace character. -/
def rbrace : Char := Char.ofNat 125

/-- The `/\x7b[\s\S]*?\x7d/` extraction: from the first opening brace to the
first closing brace after it, inclusive; `none` when either is missing. -/
def extractBraceBlock (s : Str) : Option Str :=
  let pre := s.takeWhile (fun c => c != lbrace)
  match s.drop pre.length with
  | [] => none
  | _ :: rest =>
    let body := rest.takeWhile (fun c => c != rbrace)
    match rest.drop body.length with
    | [] => none
    | _ :: _ => some (lbrace :: (body ++ [rbrace]))

/-- The source's quote "normalization" replaces the ASCII double quote by
itself (the regex classes in the source hold plain ASCII quotes), an
identity on content; modelled as the same character map. -/
def normalizeQuotes (s : Str) : Str := s.map (fun c => if c = '"' then '"' else c)

/-- The success shape of the rewriter: the three labeled lines joined by
blank lines (source lines 139-143). -/
def labeledLines (o r t : Str) : Str :=
  joinSep (("\n\n" : String).data)
    [("Optimized Query: " : String).data ++ o,
     ("Related Topics: " : String).data ++ r,
     ("Tags: " : String).data ++ t]

/-- `generateEnhancedQuery(rawQuery)` from src/lib/ai/readwise-search.ts. -/
def generateEnhancedQuery (llm : Except Unit Str)
    (jsonParse : Str → Option GeminiParsed) (rawQuery : Str) : Str :=
  match llm with
  | Except.error _ => rawQuery
  | Except.ok resp =>
    match extractBraceBlock resp with
    | none => rawQuery
    | some block =>
      match jsonParse (normalizeQuotes block) with
      | none => rawQuery
      | some parsed =>
        match parsed.optimizedQuery with
        | none => rawQuery
        | some oqRaw =>
          let oq := trim oqRaw
          if oq.isEmpty then rawQuery
          else
            labeledLines oq
              (joinSep ((", " : String).data) (parsed.relatedTopics.getD []))
              (joinSep ((", " : String).data) (parsed.tags.getD []))

/-! ## Embedding client (src/lib/ai/embeddings.ts)

The OpenAI embeddings call is external: `service : Str → Except EmbErr (List ℚ)`
returns the raw model vector or an error carrying the HTTP status (the
source distinguishes context-length overflows by `err.status === 400`).
Vector components are rationals standing for the JS floats. -/

/-- An embedding-service error: its HTTP status. -/
structure EmbErr where
  status : Nat
deriving DecidableEq

/-- `generateEmbeddings(text, dim)`: call the service; right-pad a vector
shorter than dim with zeros (a longer vector is returned as-is). -/
def generateEmbeddings (service : Str → Except EmbErr (List ℚ)) (text : Str)
    (dim : Nat) : Except EmbErr (List ℚ) :=
  match service text with
  | Except.error e => Except.error e
  | Except.ok vec =>
    Except.ok (if vec.length < dim then vec ++ List.replicate (dim - vec.length) 0 else vec)

/-- `vL.map((v, i) => (v + vR[i]) / 2)`.  When vR is shorter the JS code
reads `undefined` and produces NaN; that row is modelled as reading 0 (the
claims only touch the equal-length case). -/
def avgVec : List ℚ → List ℚ → List ℚ
  | [], _ => []
  | a :: as, [] => ((a + 0) / 2) :: avgVec as []
  | a :: as, b :: bs => ((a + b) / 2) :: avgVec as bs

/-- Modelled from the claim's words: the split point is the latest sentence
boundary (dot) at or before the character midpoint when it lies past the
first 100 characters, else the raw midpoint. -/
def specSplitPoint (text : Str) : Nat :=
  match lastDotLE text (text.length / 2) with
  | some i => if 100 < i then i + 1 else text.length / 2
  | none => text.length / 2

/-- `safeEmbed(text, dim)` from src/lib/ai/embeddings.ts, on fuel: retry a
400 by bisecting at the latest dot before the midpoint and averaging the two
recursively embedded halves; other errors re-throw.  `none` is divergence
(the JS recursion need not terminate); a rejection of either half rejects
the whole (Promise.all). -/
def safeEmbed (service : Str → Except EmbErr (List ℚ)) :
    Nat → Str → Nat → Option (Except EmbErr (List ℚ))
  | 0, _, _ => none
  | fuel + 1, text, dim =>
    match generateEmbeddings service text dim with
    | Except.ok v => some (Except.ok v)
    | Except.error e =>
      if e.status = 400 then
        let left := trim (text.take (splitIdx text))
        let right := trim (text.drop (splitIdx text))
        match safeEmbed service fuel left dim, safeEmbed service fuel right dim with
        | some (Except.ok vL), some (Except.ok vR) => some (Except.ok (avgVec vL vR))
        | some (Except.error e2), _ => some (Except.error e2)
        | _, some (Except.error e2) => some (Except.error e2)
        | _, _ => none
      else some (Except.error e)

/-- Concrete service for the C8 witness: strings longer than 4 characters
overflow the context, short ones embed to [1, 2]. -/
def embSvc0 : Str → Except EmbErr (List ℚ) :=
  fun s => if 4 < s.length then Except.error ⟨400⟩ else Except.ok [1, 2]

/-! ## Two-stage retriever (src/lib/ai/readwise-search.ts, hybridSearch)

The vector store (Pinecone) is external; its §6 contract is modelled as a
list of records queried with a boolean filter, scored by an abstract scoring
oracle `scoreOf` (standing for the dense+sparse dot product against the
current query vectors), sorted by score descending and truncated to topK. -/

/-- A stored vector record's queryable part: id and metadata fields. -/
structure VRec where
  id : Str
  docId : Option Str
  title : Option Str
  text : Option Str
  headerFlag : Option Bool
deriving DecidableEq

/-- The store's query operation per the §6 contract. -/
def queryStore (scoreOf : VRec → ℚ) (pred : VRec → Bool) (topK : Nat)
    (store : List VRec) : List VRec :=
  (sortDescBy scoreOf (store.filter pred)).take topK

/-- The header pass of hybridSearch: topK 20, filter `header = true`; keep
matches with truthy score ≥ the header threshold 1.0, take their doc_id,
drop missing/empty ones (`.filter(Boolean)`). -/
def headerCandidates (scoreOf : VRec → ℚ) (store : List VRec) : List Str :=
  let hm := queryStore scoreOf (fun r => r.headerFlag == some true) 20 store
  ((hm.filter (fun r => decide (scoreOf r ≠ 0 ∧ 1 ≤ scoreOf r))).filterMap
    (fun r => r.docId)).filter (fun d => !d.isEmpty)

/-- The chunk pass and final filtering of hybridSearch: empty candidates
short-circuit to []; otherwise query `header = false AND doc_id ∈ docIds`
with topK·2, keep truthy scores ≥ minScore, slice to topK. -/
def hybridSearchCore (scoreOf : VRec → ℚ) (topK : Nat) (minScore : ℚ)
    (store : List VRec) : List VRec :=
  let docIds := headerCandidates scoreOf store
  if docIds.isEmpty then []
  else
    let cm := queryStore scoreOf
      (fun r =>
        (match r.docId with
         | some d => docIds.contains d
         | none => false) && (r.headerFlag == some false))
      (topK * 2) store
    (cm.filter (fun r => decide (scoreOf r ≠ 0 ∧ minScore ≤ scoreOf r))).take topK

/-- The match objects hybridSearch returns. -/
structure ReadwiseMatch where
  score : ℚ
  title : Str
  text : Str
  docId : Str

/-- `hybridSearch(query, topK, minScore)`: the selected records mapped to
(score, title, text, doc_id) with `String(x || "")` defaults. -/
def hybridSearch (scoreOf : VRec → ℚ) (topK : Nat) (minScore : ℚ)
    (store : List VRec) : List ReadwiseMatch :=
  (hybridSearchCore scoreOf topK minScore store).map (fun r =>
    { score := scoreOf r
      title := r.title.getD []
      text := r.text.getD []
      docId := r.docId.getD [] })

/-- Concrete store for the C3 witness: one header record, one chunk. -/
def store0 : List VRec :=
  [⟨("d1-header" : String).data, some (("d1" : String).data),
    some (("T" : String).data), none, some true⟩,
   ⟨("d1-chunk-0" : String).data, some (("d1" : String).data),
    some (("T" : String).data), some (("body" : String).data), some false⟩]

/-- Concrete scoring oracle for the C3 witness. -/
def score2 : VRec → ℚ := fun _ => 2

/-! ## Semantic chunker (src/lib/ai/chunker.ts, semanticChunksWithOverlap)

The token-length cache only memoizes the pure external tokenizer, so the
parameter `tok : Str → Nat` covers it.  The per-window embeddings are
computed once per unique window text and compared with cosineSimilarity —
external float computations folded into the oracle `sim : Str → Str → ℚ`
(equal texts get equal vectors, so the comparison is a function of the two
texts).  The step-1 while loop runs on fuel (`none` = divergence: a single
unsplittable sentence over the limit loops forever in JS); reading
`windows[wPtr]` out of range throws in JS and is `none` as well. -/

/-- Sentence-terminating punctuation `[.!?]`. -/
def isTermCh (c : Char) : Bool := c = '.' || c = '!' || c = '?'

/-- Closing quote/bracket `["')\]]`. -/
def isCloseCh (c : Char) : Bool := c = '"' || c = '\'' || c = ')' || c = ']'

/-- Head match of the first sentence alternative `[^.!?]+[.!?]+["')\]]*`:
the match and the remainder. -/
def sentAlt1 (s : Str) : Option (Str × Str) :=
  let p1 := s.takeWhile (fun c => !isTermCh c)
  if p1.isEmpty then none
  else
    let r1 := s.drop p1.length
    let p2 := r1.takeWhile isTermCh
    if p2.isEmpty then none
    else
      let r2 := r1.drop p2.length
      let p3 := r2.takeWhile isCloseCh
      some (p1 ++ p2 ++ p3, r2.drop p3.length)

/-- The global scan of `/[^.!?]+[.!?]+["')\]]*|\S+$/g`: try the first
alternative at each position; `\S+$` matches when everything left is
non-whitespace; otherwise advance one character. -/
def sentScan : Nat → Str → List Str
  | 0, _ => []
  | _ + 1, [] => []
  | fuel + 1, c :: cs =>
    match sentAlt1 (c :: cs) with
    | some (m, rest) => m :: sentScan fuel rest
    | none =>
      if (c :: cs).all (fun d => !isWs d) then [c :: cs]
      else sentScan fuel cs

/-- `splitSentences(p)` from src/lib/ai/chunker.ts: the regex matches
trimmed, or `[p]` when the regex finds nothing. -/
def splitSentences (p : Str) : List Str :=
  match sentScan (p.length + 1) p with
  | [] => [p]
  | l => l.map trim

/-- Index of the last newline in a string. -/
def lastNlIdx (l : Str) : Option Nat :=
  (l.reverse.findIdx? (fun c => c = '\n')).map (fun j => l.length - 1 - j)

/-- Head match of the paragraph separator `/\r?\n\s*\r?\n+/` with the
greedy backtracking resolved: `\r?\n`, then the maximal whitespace run
truncated just after its last newline; the run must hold ≥ 1 newline. -/
def paraSepLen (s : Str) : Option Nat :=
  match s with
  | '\r' :: '\n' :: r =>
    match lastNlIdx (r.takeWhile isWs) with
    | none => none
    | some j => some (2 + j + 1)
  | '\n' :: r =>
    match lastNlIdx (r.takeWhile isWs) with
    | none => none
    | some j => some (1 + j + 1)
  | _ => none

/-- `text.split(/\r?\n\s*\r?\n+/)` on fuel; `cur` is the current piece
reversed. -/
def splitParasAux (cur : Str) : Nat → Str → List Str
  | 0, s => [cur.reverse ++ s]
  | _ + 1, [] => [cur.reverse]
  | fuel + 1, c :: cs =>
    match paraSepLen (c :: cs) with
    | some n => cur.reverse :: splitParasAux [] fuel ((c :: cs).drop n)
    | none => splitParasAux (c :: cur) fuel cs

/-- `text.split(/\r?\n\s*\r?\n+/)`. -/
def splitParas (s : Str) : List Str := splitParasAux [] (s.length + 1) s

/-- The chunker configuration (minTokens, maxTokens, windowSize, threshold). -/
structure ChunkCfg where
  minTokens : Nat
  maxTokens : Nat
  windowSize : Nat
  threshold : ℚ

/-- `SINGLE_LIMIT = CTX_LIMIT - 1000`. -/
def SINGLE_LIMIT : Nat := 8192 - 1000

/-- Step 1 of the chunker: the while(queue) merge loop; `revParas` holds the
merged paragraphs reversed (the JS mutates `paragraphs[length-1]`).  A
paragraph over SINGLE_LIMIT is sentence-split back onto the queue via
repeated unshift, which reverses the sentence order exactly as the JS loop
does.  Fuel exhaustion models divergence. -/
def mergeLoop (tok : Str → Nat) (maxTokens : Nat) :
    Nat → List Str → List Str → Option (List Str)
  | 0, _, _ => none
  | _ + 1, [], revParas => some revParas.reverse
  | fuel + 1, p :: queue, revParas =>
    if SINGLE_LIMIT < tok p then
      mergeLoop tok maxTokens fuel ((splitSentences p).reverse ++ queue) revParas
    else
      match revParas with
      | [] => mergeLoop tok maxTokens fuel queue [p]
      | last :: others =>
        let candidate := last ++ nl2 ++ p
        if tok candidate ≤ maxTokens ∧ tok candidate ≤ SINGLE_LIMIT then
          mergeLoop tok maxTokens fuel queue (candidate :: others)
        else
          mergeLoop tok maxTokens fuel queue (p :: last :: others)

/-- A sliding window pair: the window texts whose embeddings get compared. -/
structure Win where
  curr : Str
  next : Str
deriving DecidableEq

/-- Step 2 of the chunker: one window pair per position i <
paragraphs.length - windowSize, skipping pairs where either side exceeds
maxTokens. -/
def buildWindows (tok : Str → Nat) (maxTokens windowSize : Nat)
    (paras : List Str) : List Win :=
  (List.range (paras.length - windowSize)).filterMap (fun i =>
    let a := if windowSize ≤ i + 1 then i + 1 - windowSize else 0
    let curr := joinSep [' '] ((paras.drop a).take (i + 1 - a))
    let next := joinSep [' '] ((paras.drop (i + 1)).take windowSize)
    if maxTokens < tok curr ∨ maxTokens < tok next then none
    else some ⟨curr, next⟩)

/-- The `flush()` of step 4: push the trimmed \n\n-joined buffer when it is
non-empty (`chunksRev` holds the emitted chunks reversed). -/
def flushPush (chunksRev : List Str) (current : List Str) : List Str :=
  if current.isEmpty then chunksRev
  else trim (joinSep nl2 current) :: chunksRev

/-- Step 4 of the chunker: walk the merged paragraphs deciding chunk
breaks.  An oversize paragraph flushes the buffer and emits its sentence
splits, keeping only those within maxTokens; buffers cross-checked against
`windows[wPtr]`, whose out-of-range read throws in JS (`none`). -/
def chunkWalk (tok : Str → Nat) (minTokens maxTokens : Nat) (threshold : ℚ)
    (sim : Str → Str → ℚ) (windows : List Win) :
    List Str → List Str → List Str → Nat → Nat → Option (List Str)
  | [], chunksRev, current, _, _ => some (flushPush chunksRev current).reverse
  | p :: rest, chunksRev, current, currentTok, wPtr =>
    let isLast := rest.isEmpty
    let pTok := tok p
    if maxTokens < pTok then
      let c2 := (((splitSentences p).filter (fun s => tok s ≤ maxTokens)).map trim).reverse
        ++ flushPush chunksRev current
      chunkWalk tok minTokens maxTokens threshold sim windows rest c2 [] 0 wPtr
    else
      let current2 := current ++ [p]
      let tok2 := currentTok + pTok
      if tok2 < minTokens ∧ isLast = false then
        chunkWalk tok minTokens maxTokens threshold sim windows rest chunksRev current2 tok2 wPtr
      else if maxTokens < tok2 then
        chunkWalk tok minTokens maxTokens threshold sim windows rest
          (flushPush chunksRev current2) [] 0 wPtr
      else if minTokens ≤ tok2 ∧ isLast = false then
        match windows.get? wPtr with
        | none => none
        | some w =>
          if maxTokens < tok2 + tok w.next then
            chunkWalk tok minTokens maxTokens threshold sim windows rest
              (flushPush chunksRev current2) [] 0 (wPtr + 1)
          else if sim w.curr w.next < threshold then
            chunkWalk tok minTokens maxTokens threshold sim windows rest
              (flushPush chunksRev current2) [] 0 (wPtr + 1)
          else
            chunkWalk tok minTokens maxTokens threshold sim windows rest
              chunksRev current2 tok2 (wPtr + 1)
      else
        chunkWalk tok minTokens maxTokens threshold sim windows rest
          chunksRev current2 tok2 wPtr

/-- `semanticChunksWithOverlap(text, cfg)` from src/lib/ai/chunker.ts. -/
def semanticChunksWithOverlap (tok : Str → Nat) (sim : Str → Str → ℚ)
    (cfg : ChunkCfg) (fuel : Nat) (text : Str) : Option (List Str) :=
  let rawParas := ((splitParas text).map trim).filter (fun p => !p.isEmpty)
  match mergeLoop tok cfg.maxTokens fuel rawParas [] with
  | none => none
  | some paragraphs =>
    let windows := buildWindows tok cfg.maxTokens cfg.windowSize paragraphs
    if windows.isEmpty then some (paragraphs.map trim)
    else chunkWalk tok cfg.minTokens cfg.maxTokens cfg.threshold sim windows
      paragraphs [] [] 0 0

/-- The claim's documented exception: the chunk is a single sentence with no
internal sentence-terminating punctuation (no terminator remains once
trailing terminators, closing quotes/brackets and whitespace are stripped). -/
def singleSentenceNoInternalTerm (s : Str) : Bool :=
  ((s.reverse.dropWhile (fun c => isTermCh c || isCloseCh c || isWs c)).reverse).all
    (fun c => !isTermCh c)

/-- Constant similarity oracle for the concrete chunker runs. -/
def simOne : Str → Str → ℚ := fun _ _ => 1

/-- Configuration of the C1 counterexample (minTokens 3 ≤ maxTokens 4). -/
def cfg1 : ChunkCfg := ⟨3, 4, 1, 1⟩

/-- Input of the C1 counterexample: a 2-word paragraph under minTokens
followed by a 3-word paragraph. -/
def text1 : Str := ("One two.\n\nThree four five." : String).data

/-- The oversize chunk the C1 counterexample produces. -/
def chunk1 : Str := ("One two.\n\nThree four five." : String).data

/-- Configuration of the C7 counterexample. -/
def cfg7 : ChunkCfg := ⟨3, 3, 1, 1⟩

/-- Input of the C7 counterexample: an oversize one-sentence paragraph
followed by two small paragraphs. -/
def text7 : Str := ("d e f g h.\n\na b c.\n\nx y z." : String).data

/-- The oversize one-sentence paragraph of the C7 counterexample. -/
def p7 : Str := ("d e f g h." : String).data

/-- The oversize two-sentence paragraph of the C7 witness. -/
def p8 : Str := ("a b. c d e f." : String).data

/-! # Theorems -/

/-! ## Generic list lemmas -/

theorem joinPlain_append (a b : List Str) :
    joinPlain (a ++ b) = joinPlain a ++ joinPlain b := by
  induction a with
  | nil => simp [joinPlain]
  | cons x xs ih => simp [joinPlain, ih]

theorem joinPlain_reverse_cons (x : Str) (acc : List Str) :
    joinPlain ((x :: acc).reverse) = joinPlain acc.reverse ++ x := by
  simp [List.reverse_cons, joinPlain_append, joinPlain]

theorem perm_insDescBy {α : Type _} {β : Type _} [LinearOrder β]
    (k : α → β) (x : α) (l : List α) :
    List.Perm (insDescBy k x l) (x :: l) := by
  induction l with
  | nil => simp [insDescBy]
  | cons y ys ih =>
    by_cases h : k y < k x
    · simp [insDescBy, h]
    · simp only [insDescBy, if_neg h]
      exact (ih.cons y).trans (List.Perm.swap x y ys)

theorem perm_sortDescBy {α : Type _} {β : Type _} [LinearOrder β]
    (k : α → β) (l : List α) :
    List.Perm (sortDescBy k l) l := by
  induction l with
  | nil => simp [sortDescBy]
  | cons x xs ih =>
    exact (perm_insDescBy k x (sortDescBy k xs)).trans (ih.cons x)

theorem pairwise_insDescBy {α : Type _} {β : Type _} [LinearOrder β]
    (k : α → β) (x : α) (l : List α)
    (h : l.Pairwise (fun a b => k b ≤ k a)) :
    (insDescBy k x l).Pairwise (fun a b => k b ≤ k a) := by
  induction l with
  | nil => simp [insDescBy]
  | cons y ys ih =>
    rcases List.pairwise_cons.mp h with ⟨hy, hys⟩
    by_cases hxy : k y < k x
    · simp only [insDescBy, if_pos hxy]
      refine List.pairwise_cons.mpr ⟨?_, h⟩
      intro z hz
      rcases List.mem_cons.mp hz with hz | hz
      · subst hz; exact le_of_lt hxy
      · exact le_trans (hy z hz) (le_of_lt hxy)
    · simp only [insDescBy, if_neg hxy]
      refine List.pairwise_cons.mpr ⟨?_, ih hys⟩
      intro z hz
      have hz2 := (perm_insDescBy k x ys).mem_iff.mp hz
      rcases List.mem_cons.mp hz2 with hz3 | hz3
      · subst hz3; exact le_of_not_lt hxy
      · exact hy z hz3

theorem pairwise_sortDescBy {α : Type _} {β : Type _} [LinearOrder β]
    (k : α → β) (l : List α) :
    (sortDescBy k l).Pairwise (fun a b => k b ≤ k a) := by
  induction l with
  | nil => simp [sortDescBy]
  | cons x xs ih => exact pairwise_insDescBy k x _ ih

theorem perm_insAscByKey (x : Nat × Nat) (l : List (Nat × Nat)) :
    List.Perm (insAscByKey x l) (x :: l) := by
  induction l with
  | nil => simp [insAscByKey]
  | cons y ys ih =>
    by_cases h : x.1 < y.1
    · simp [insAscByKey, h]
    · simp only [insAscByKey, if_neg h]
      exact (ih.cons y).trans (List.Perm.swap x y ys)

theorem perm_sortAscByKey (l : List (Nat × Nat)) :
    List.Perm (sortAscByKey l) l := by
  induction l with
  | nil => simp [sortAscByKey]
  | cons x xs ih =>
    exact (perm_insAscByKey x (sortAscByKey xs)).trans (ih.cons x)

theorem stripWs_append (a b : Str) : stripWs (a ++ b) = stripWs a ++ stripWs b := by
  simp [stripWs]

theorem stripWs_dropWhileWs (s : Str) : stripWs (s.dropWhile isWs) = stripWs s := by
  induction s with
  | nil => rfl
  | cons c cs ih =>
    by_cases h : isWs c
    · simpa [stripWs, List.dropWhile_cons, h] using ih
    · simp [stripWs, List.dropWhile_cons, h]

theorem stripWs_reverse (s : Str) : stripWs s.reverse = (stripWs s).reverse := by
  simp [stripWs, List.filter_reverse]

theorem stripWs_trim (s : Str) : stripWs (trim s) = stripWs s := by
  have h1 : stripWs (trimL s) = stripWs s := stripWs_dropWhileWs s
  have h2 : stripWs (trimR (trimL s)) = stripWs (trimL s) := by
    unfold trimR
    rw [stripWs_reverse, stripWs_dropWhileWs, stripWs_reverse, List.reverse_reverse]
  rw [trim, h2, h1]

/-! ## C2: splitToFit -/

theorem splitToFitAux_strip (tok : Str → Nat) (ctx : Nat) :
    ∀ fuel chunk acc out, splitToFitAux tok ctx fuel chunk acc = some out →
      stripWs (joinPlain out) = stripWs (joinPlain acc.reverse) ++ stripWs chunk := by
  intro fuel
  induction fuel with
  | zero => intro chunk acc out h; simp [splitToFitAux] at h
  | succ n ih =>
    intro chunk acc out h
    by_cases hle : tok chunk ≤ ctx
    · simp only [splitToFitAux, if_pos hle, Option.some.injEq] at h
      subst h
      rw [joinPlain_reverse_cons, stripWs_append]
    · simp only [splitToFitAux, if_neg hle] at h
      have hih := ih _ _ _ h
      rw [hih]
      have hsplit : chunk.take (splitIdx chunk) ++ chunk.drop (splitIdx chunk) = chunk :=
        List.take_append_drop _ _
      rw [joinPlain_reverse_cons, stripWs_append, stripWs_trim, stripWs_trim,
        List.append_assoc, ← stripWs_append, hsplit]

theorem splitToFitAux_last (tok : Str → Nat) (ctx : Nat) :
    ∀ fuel chunk acc out, splitToFitAux tok ctx fuel chunk acc = some out →
      ∃ l, out.getLast? = some l ∧ tok l ≤ ctx := by
  intro fuel
  induction fuel with
  | zero => intro chunk acc out h; simp [splitToFitAux] at h
  | succ n ih =>
    intro chunk acc out h
    by_cases hle : tok chunk ≤ ctx
    · simp only [splitToFitAux, if_pos hle, Option.some.injEq] at h
      subst h
      refine ⟨chunk, ?_, hle⟩
      simp [List.getLast?_reverse]
    · simp only [splitToFitAux, if_neg hle] at h
      exact ih _ _ _ h

/-- C2: the claim that every element of splitToFit has token length ≤ ctx is
false: the pushed prefix pieces are never re-checked.  Concretely, under the
word-count token measure with ctx = 2 ≥ 2, the first returned piece has 4
tokens. -/
theorem splitToFit_elem_exceeds_ctx :
    splitToFit wc (("a b c d e f g h" : String).data) 2 =
      some [("a b c d" : String).data, ("e f" : String).data, ("g h" : String).data] ∧
    2 ≤ 2 ∧
    wc (("a b c d" : String).data) > 2 := by
  refine ⟨by decide, by decide, by decide⟩

/-- C2 (amended): when `splitToFit` terminates, its final element has token
length ≤ ctx (earlier prefix pieces need not), and the concatenation of the
returned pieces equals the input text up to the whitespace removed by the
trimming at split points. -/
theorem splitToFit_last_and_concat (tok : Str → Nat) (text : Str) (ctx : Nat)
    (out : List Str) (h : splitToFit tok text ctx = some out) :
    (∃ l, out.getLast? = some l ∧ tok l ≤ ctx) ∧
    stripWs (joinPlain out) = stripWs text := by
  refine ⟨splitToFitAux_last tok ctx _ _ _ _ h, ?_⟩
  have := splitToFitAux_strip tok ctx _ _ _ _ h
  simpa [joinPlain, stripWs] using this

/-- Witness for the amended C2 theorem at a concrete input. -/
theorem splitToFit_last_and_concat_witness :
    (∃ l, [("a b c d" : String).data, ("e f" : String).data,
      ("g h" : String).data].getLast? = some l ∧ wc l ≤ 2) ∧
    stripWs (joinPlain [("a b c d" : String).data, ("e f" : String).data,
      ("g h" : String).data]) = stripWs (("a b c d e f g h" : String).data) :=
  splitToFit_last_and_concat wc (("a b c d e f g h" : String).data) 2 _ (by decide)

/-! ## C4: toSparseVector -/

theorem bumpNat_pos (m : List (Nat × Nat)) (k : Nat)
    (h : ∀ e ∈ m, 0 < e.2) : ∀ e ∈ bumpNat m k, 0 < e.2 := by
  intro e he
  by_cases hmem : m.any (fun e => e.1 = k)
  · simp only [bumpNat, if_pos hmem, List.mem_map] at he
    rcases he with ⟨a, ha, hae⟩
    by_cases hk : a.1 = k
    · simp only [if_pos hk] at hae
      subst hae; simp
    · simp only [if_neg hk] at hae
      subst hae; exact h a ha
  · simp only [bumpNat, if_neg hmem, List.mem_append, List.mem_singleton] at he
    rcases he with he | he
    · exact h e he
    · subst he; simp

theorem bumpNat_keys_nodup (m : List (Nat × Nat)) (k : Nat)
    (h : (m.map (fun e => e.1)).Nodup) : ((bumpNat m k).map (fun e => e.1)).Nodup := by
  by_cases hmem : m.any (fun e => e.1 = k)
  · simp only [bumpNat, if_pos hmem]
    have : (m.map (fun e => if e.1 = k then (e.1, e.2 + 1) else e)).map (fun e => e.1)
        = m.map (fun e => e.1) := by
      rw [List.map_map]
      refine List.map_congr_left ?_
      intro a _
      by_cases hk : a.1 = k <;> simp [hk]
    rw [this]; exact h
  · simp only [bumpNat, if_neg hmem, List.map_append]
    simp only [List.any_eq_true, not_exists, not_and] at hmem
    simp only [List.map_cons, List.map_nil]
    rw [List.nodup_append]
    refine ⟨h, List.nodup_singleton k, ?_⟩
    intro a ha hb
    simp only [List.mem_singleton] at hb
    subst hb
    rcases List.mem_map.mp ha with ⟨e, he, hek⟩
    exact (hmem e he) (by simp [hek])

theorem freqFold_pos (hashF : Str → Nat) (toks : List Str) :
    ∀ m, (∀ e ∈ m, 0 < e.2) →
      ∀ e ∈ toks.foldl (fun m t => bumpNat m (hashF t)) m, 0 < e.2 := by
  induction toks with
  | nil => intro m hm; simpa using hm
  | cons t ts ih =>
    intro m hm
    exact ih _ (bumpNat_pos m (hashF t) hm)

theorem freqFold_keys_nodup (hashF : Str → Nat) (toks : List Str) :
    ∀ m, (m.map (fun e => e.1)).Nodup →
      (((toks.foldl (fun m t => bumpNat m (hashF t)) m)).map (fun e => e.1)).Nodup := by
  induction toks with
  | nil => intro m hm; simpa using hm
  | cons t ts ih =>
    intro m hm
    exact ih _ (bumpNat_keys_nodup m (hashF t) hm)

/-- C4: for every text and maxTerms ≥ 1, `toSparseVector` returns parallel
arrays with at most maxTerms indices, strictly positive values in
non-increasing order, pairwise-distinct indices; and a text with no tokens
after stop-stripping yields empty arrays. -/
theorem toSparseVector_spec (hashF : Str → Nat) (isStop : Str → Bool)
    (text : Str) (maxTerms : Nat) (_hmax : 1 ≤ maxTerms) :
    (toSparseVector hashF isStop text maxTerms).1.length ≤ maxTerms ∧
    (∀ v ∈ (toSparseVector hashF isStop text maxTerms).2, 0 < v) ∧
    (toSparseVector hashF isStop text maxTerms).2.Pairwise (fun a b => b ≤ a) ∧
    (toSparseVector hashF isStop text maxTerms).1.Nodup ∧
    (nonWsRuns (stripStops isStop text) = [] →
      toSparseVector hashF isStop text maxTerms = ([], [])) := by
  set freq := (nonWsRuns (stripStops isStop text)).foldl (fun m t => bumpNat m (hashF t)) []
    with hfreq
  have hpos : ∀ e ∈ freq, 0 < e.2 := freqFold_pos hashF _ [] (by simp)
  have hnodup : (freq.map (fun e => e.1)).Nodup := freqFold_keys_nodup hashF _ [] (by simp)
  have hperm : List.Perm (sortDescBy (fun e : Nat × Nat => e.2) (sortAscByKey freq)) freq :=
    (perm_sortDescBy _ _).trans (perm_sortAscByKey freq)
  set top := (sortDescBy (fun e : Nat × Nat => e.2) (sortAscByKey freq)).take maxTerms
    with htop
  have hsub : top.Sublist (sortDescBy (fun e : Nat × Nat => e.2) (sortAscByKey freq)) :=
    List.take_sublist _ _
  have hmemfreq : ∀ e ∈ top, e ∈ freq := fun e he => hperm.mem_iff.mp (hsub.mem he)
  refine ⟨?_, ?_, ?_, ?_, ?_⟩
  · simp only [toSparseVector, List.length_map]
    rw [← hfreq, ← htop]
    simp only [htop]
    exact List.length_take_le maxTerms _
  · intro v hv
    simp only [toSparseVector] at hv
    rcases List.mem_map.mp hv with ⟨e, he, hev⟩
    subst hev
    exact hpos e (hmemfreq e he)
  · have hsorted := pairwise_sortDescBy (fun e : Nat × Nat => e.2)
      (sortAscByKey freq)
    have htopsorted : top.Pairwise (fun a b => b.2 ≤ a.2) := hsorted.sublist hsub
    have h2 : (top.map (fun e => e.2)).Pairwise (fun a b => b ≤ a) :=
      List.pairwise_map.mpr htopsorted
    simp only [toSparseVector]
    rw [← hfreq, ← htop]
    exact h2
  · have : (top.map (fun e => e.1)).Sublist
        ((sortDescBy (fun e : Nat × Nat => e.2) (sortAscByKey freq)).map (fun e => e.1)) :=
      hsub.map _
    have hnodup2 : ((sortDescBy (fun e : Nat × Nat => e.2)
        (sortAscByKey freq)).map (fun e => e.1)).Nodup :=
      ((hperm.map (fun e => e.1)).nodup_iff).mpr hnodup
    exact hnodup2.sublist this
  · intro hempty
    simp only [toSparseVector]
    rw [hempty]
    simp [sortAscByKey, sortDescBy]

/-- Witness for C4 at a concrete input. -/
theorem toSparseVector_spec_witness :
    (toSparseVector (fun s => s.length) noStops
      (("hi there hi" : String).data) 3).1.length ≤ 3 ∧
    (∀ v ∈ (toSparseVector (fun s => s.length) noStops
      (("hi there hi" : String).data) 3).2, 0 < v) ∧
    (toSparseVector (fun s => s.length) noStops
      (("hi there hi" : String).data) 3).2.Pairwise (fun a b => b ≤ a) ∧
    (toSparseVector (fun s => s.length) noStops
      (("hi there hi" : String).data) 3).1.Nodup ∧
    (nonWsRuns (stripStops noStops (("hi there hi" : String).data)) = [] →
      toSparseVector (fun s => s.length) noStops
        (("hi there hi" : String).data) 3 = ([], [])) :=
  toSparseVector_spec (fun s => s.length) noStops
    (("hi there hi" : String).data) 3 (by decide)

/-! ## C5: the TF-IDF model lifecycle and getTopTerms -/

theorem runOps_append (isStop : Str → Bool) (ops : List TfOp) (op : TfOp) :
    runOps isStop (ops ++ [op]) =
      (match op with
       | TfOp.add d t => (runOps isStop ops).addDocument isStop d t
       | TfOp.build => (runOps isStop ops).build) := by
  simp only [runOps, List.foldl_append, List.foldl_cons, List.foldl_nil]

theorem built_iff_buildSince (isStop : Str → Bool) (ops : List TfOp) :
    (runOps isStop ops).built = true ↔ buildSinceLastAdd ops := by
  induction ops using List.reverseRecOn with
  | nil =>
    constructor
    · intro h; simp [runOps, SimpleTfIdf.init] at h
    · rintro ⟨pre, post, hdecomp, -⟩
      exact absurd hdecomp (by simp)
  | append_singleton ops op ih =>
    rw [runOps_append]
    cases op with
    | build =>
      constructor
      · intro _
        exact ⟨ops, [], rfl, by intro o ho; cases ho⟩
      · intro _
        simp [SimpleTfIdf.build]
    | add d t =>
      constructor
      · intro h
        simp [SimpleTfIdf.addDocument] at h
      · rintro ⟨pre, post, hdecomp, hpost⟩
        exfalso
        have hlast : (ops ++ [TfOp.add d t]).getLast? = some (TfOp.add d t) := by
          simp
        rw [hdecomp] at hlast
        rcases List.eq_nil_or_concat post with hnil | ⟨post2, o, hconcat⟩
        · subst hnil
          simp at hlast
        · subst hconcat
          rw [List.concat_eq_append] at hpost
          rw [List.concat_eq_append] at hlast
          have hgl : (pre ++ TfOp.build :: (post2 ++ [o])).getLast? = some o := by
            rw [show pre ++ TfOp.build :: (post2 ++ [o]) =
              (pre ++ TfOp.build :: post2) ++ [o] by simp]
            exact List.getLast?_concat _
          rw [hgl] at hlast
          have ho : o ∈ post2 ++ [o] := by simp
          have hne := hpost o ho d t
          injection hlast with h2
          exact hne h2

/-- C5: the TF-IDF queries (`tfIdf`, `getTopTerms`) fail with NotBuilt iff
no `build()` has happened since the most recent `addDocument`; and in the
built state `getTopTerms(d, n)` returns at most n terms, each of length ≥ 3
and not purely numeric, with non-increasing weights. -/
theorem simpleTfIdf_spec (isStop : Str → Bool) (logFn : Nat → Nat → ℚ)
    (ops : List TfOp) (d term : Str) (n : Nat) :
    ((runOps isStop ops).built = true ↔ buildSinceLastAdd ops) ∧
    ((runOps isStop ops).built = false →
      (runOps isStop ops).getTopTerms logFn d n = Except.error notBuiltMsg ∧
      (runOps isStop ops).tfIdf logFn d term = Except.error notBuiltMsg) ∧
    ((runOps isStop ops).built = true →
      (∃ l, (runOps isStop ops).getTopTerms logFn d n = Except.ok l) ∧
      (∃ v, (runOps isStop ops).tfIdf logFn d term = Except.ok v)) ∧
    (∀ m : SimpleTfIdf, ∀ l, m.getTopTerms logFn d n = Except.ok l →
      l.length ≤ n ∧
      (∀ p ∈ l, 3 ≤ p.1.length ∧ isAllDigits p.1 = false) ∧
      l.Pairwise (fun a b => b.2 ≤ a.2)) := by
  refine ⟨built_iff_buildSince isStop ops, ?_, ?_, ?_⟩
  · intro h
    constructor
    · simp [SimpleTfIdf.getTopTerms, h]
    · simp [SimpleTfIdf.tfIdf, h]
  · intro h
    constructor
    · cases hres : (runOps isStop ops).getTopTerms logFn d n with
      | error e => simp [SimpleTfIdf.getTopTerms, h] at hres
      | ok l => exact ⟨l, rfl⟩
    · cases hres : (runOps isStop ops).tfIdf logFn d term with
      | error e => simp [SimpleTfIdf.tfIdf, h] at hres
      | ok v => exact ⟨v, rfl⟩
  · intro m l hl
    by_cases hb : m.built
    · simp only [SimpleTfIdf.getTopTerms, hb, Bool.not_true, Bool.false_eq_true,
        if_false, Except.ok.injEq] at hl
      match hdoc : getAssoc m.documents d with
      | none =>
        rw [hdoc] at hl
        subst hl
        exact ⟨by simp, by simp, by simp⟩
      | some termFreq =>
        rw [hdoc] at hl
        subst hl
        set termScores := termFreq.filterMap (fun e =>
          if 3 ≤ e.1.length ∧ isAllDigits e.1 = false then
            some (e.1, m.tfIdfVal logFn d e.1)
          else none) with hts
        refine ⟨List.length_take_le n _, ?_, ?_⟩
        · intro p hp
          have hp2 : p ∈ sortDescBy (fun p : Str × ℚ => p.2) termScores :=
            (List.take_sublist _ _).mem hp
          have hp3 : p ∈ termScores :=
            (perm_sortDescBy (fun p : Str × ℚ => p.2) termScores).mem_iff.mp hp2
          rcases List.mem_filterMap.mp hp3 with ⟨e, -, he⟩
          by_cases hcond : 3 ≤ e.1.length ∧ isAllDigits e.1 = false
          · rw [if_pos hcond] at he
            cases he
            exact ⟨hcond.1, hcond.2⟩
          · rw [if_neg hcond] at he
            cases he
        · exact (pairwise_sortDescBy (fun p : Str × ℚ => p.2) termScores).sublist
            (List.take_sublist _ _)
    · simp [SimpleTfIdf.getTopTerms, hb] at hl

/-- Witness for C5 at a concrete run: add one document, build, query. -/
theorem simpleTfIdf_spec_witness :
    (runOps noStops opsC5).built = true ∧
    (∃ l, (runOps noStops opsC5).getTopTerms logOne (("doc" : String).data) 2 =
      Except.ok l) := by
  have h := simpleTfIdf_spec noStops logOne opsC5 (("doc" : String).data)
    (("doc" : String).data) 2
  have hb : buildSinceLastAdd opsC5 := by
    refine ⟨[TfOp.add (("doc" : String).data) (("alpha beta alpha" : String).data)],
      [], rfl, ?_⟩
    intro o ho; cases ho
  have hbuilt := h.1.mpr hb
  exact ⟨hbuilt, (h.2.2.1 hbuilt).1⟩

/-! ## C6: HTML normalizer -/

theorem triple_cons_iff (c : Char) (l : Str) :
    hasTripleNl (c :: l) = true ↔
      ((c = '\n' ∧ l.take 2 = ['\n', '\n']) ∨ hasTripleNl l = true) := by
  match l with
  | [] => simp [hasTripleNl]
  | [c2] => simp [hasTripleNl]
  | c2 :: c3 :: rest => simp [hasTripleNl, and_assoc]

theorem triple_tail (c : Char) (l : Str) (h : hasTripleNl (c :: l) = false) :
    hasTripleNl l = false := by
  cases hl : hasTripleNl l with
  | false => rfl
  | true =>
    have h2 := (triple_cons_iff c l).mpr (Or.inr hl)
    rw [h2] at h
    simp at h

theorem triple_dropWhile (p : Char → Bool) (s : Str) (h : hasTripleNl s = false) :
    hasTripleNl (s.dropWhile p) = false := by
  induction s with
  | nil => simpa using h
  | cons c cs ih =>
    rw [List.dropWhile_cons]
    by_cases hp : p c = true
    · simp only [hp, if_true]
      exact ih (triple_tail _ _ h)
    · simp only [hp, if_false]
      exact h

theorem exists_trim_infix (s : Str) : ∃ x y, s = x ++ trim s ++ y := by
  have h1 : s = s.takeWhile isWs ++ trimL s :=
    (List.takeWhile_append_dropWhile _ _).symm
  have h4 : trimL s = trim s ++ ((trimL s).reverse.takeWhile isWs).reverse := by
    have h3 : (trimL s).reverse =
        (trimL s).reverse.takeWhile isWs ++ (trimL s).reverse.dropWhile isWs :=
      (List.takeWhile_append_dropWhile _ _).symm
    have h5 := congrArg List.reverse h3
    rw [List.reverse_reverse, List.reverse_append] at h5
    exact h5
  refine ⟨s.takeWhile isWs, ((trimL s).reverse.takeWhile isWs).reverse, ?_⟩
  rw [List.append_assoc, ← h4]
  exact h1

theorem triple_iff (s : Str) :
    hasTripleNl s = true ↔ ∃ a b, s = a ++ '\n' :: '\n' :: '\n' :: b := by
  constructor
  · intro h
    induction s with
    | nil => simp [hasTripleNl] at h
    | cons c cs ih =>
      rcases (triple_cons_iff c cs).mp h with ⟨hc, htake⟩ | h2
      · subst hc
        cases cs with
        | nil => simp at htake
        | cons c2 cs2 =>
          cases cs2 with
          | nil => simp at htake
          | cons c3 rest =>
            simp at htake
            exact ⟨[], rest, by simp [htake.1, htake.2]⟩
      · rcases ih h2 with ⟨a, b, hab⟩
        exact ⟨c :: a, b, by simp [hab]⟩
  · rintro ⟨a, b, rfl⟩
    induction a with
    | nil => simp [hasTripleNl]
    | cons c as ih =>
      exact (triple_cons_iff _ _).mpr (Or.inr ih)

theorem triple_trim (s : Str) (h : hasTripleNl s = false) :
    hasTripleNl (trim s) = false := by
  cases ht : hasTripleNl (trim s) with
  | false => rfl
  | true =>
    rcases (triple_iff _).mp ht with ⟨a, b, hab⟩
    rcases exists_trim_infix s with ⟨x, y, hxy⟩
    have htrue : hasTripleNl s = true := by
      refine (triple_iff s).mpr ⟨x ++ a, b ++ y, ?_⟩
      rw [hxy, hab]
      simp
    rw [htrue] at h
    simp at h

theorem triple_cons_ne (c : Char) (hc : c ≠ '\n') (X : Str)
    (h : hasTripleNl X = false) : hasTripleNl (c :: X) = false := by
  cases ht : hasTripleNl (c :: X) with
  | false => rfl
  | true =>
    rcases (triple_cons_iff c X).mp ht with ⟨h1, -⟩ | h2
    · exact absurd h1 hc
    · rw [h] at h2
      simp at h2

theorem triple_nl1 (c : Char) (hc : c ≠ '\n') (X : Str)
    (h : hasTripleNl X = false) : hasTripleNl ('\n' :: c :: X) = false := by
  cases ht : hasTripleNl ('\n' :: c :: X) with
  | false => rfl
  | true =>
    rcases (triple_cons_iff _ _).mp ht with ⟨-, htk⟩ | h2
    · simp at htk
      exact absurd htk.1 hc
    · rw [triple_cons_ne c hc X h] at h2
      simp at h2

theorem triple_nl2 (c : Char) (hc : c ≠ '\n') (X : Str)
    (h : hasTripleNl X = false) : hasTripleNl ('\n' :: '\n' :: c :: X) = false := by
  cases ht : hasTripleNl ('\n' :: '\n' :: c :: X) with
  | false => rfl
  | true =>
    rcases (triple_cons_iff _ _).mp ht with ⟨-, htk⟩ | h2
    · simp at htk
      exact absurd htk hc
    · rw [triple_nl1 c hc X h] at h2
      simp at h2

theorem collapseNlAux_no_triple (s : Str) : ∀ run,
    hasTripleNl (collapseNlAux run s) = false := by
  induction s with
  | nil =>
    intro run
    simp only [collapseNlAux, nlEmit]
    by_cases h3 : 3 ≤ run
    · simp [h3, hasTripleNl]
    · rw [if_neg h3]
      have hr : run ≤ 2 := by omega
      interval_cases run <;> decide
  | cons c cs ih =>
    intro run
    simp only [collapseNlAux]
    by_cases hc : c = '\n'
    · rw [if_pos hc]
      exact ih (run + 1)
    · rw [if_neg hc]
      have hX := ih 0
      by_cases h3 : 3 ≤ run
      · rw [nlEmit, if_pos h3]
        exact triple_nl2 c hc _ hX
      · rw [nlEmit, if_neg h3]
        have hr : run ≤ 2 := by omega
        interval_cases run
        · simpa using triple_cons_ne c hc _ hX
        · simpa using triple_nl1 c hc _ hX
        · simpa using triple_nl2 c hc _ hX

/-- C6 (counterexample): the normalizer is not idempotent.  Entity decoding
runs after tag stripping, so `&lt;p&gt;x` normalizes to `<p>x`, and a second
application treats the decoded text as markup and yields `x`. -/
theorem extractTextFromHtml_not_idempotent :
    extractTextFromHtml (("&lt;p&gt;x" : String).data) = ("<p>x" : String).data ∧
    extractTextFromHtml (extractTextFromHtml (("&lt;p&gt;x" : String).data)) ≠
      extractTextFromHtml (("&lt;p&gt;x" : String).data) := by
  refine ⟨by decide, by decide⟩

/-- C6 (amended): no output of the normalizer contains three consecutive
newlines (idempotence fails: decoded entities can reintroduce markup that a
second pass would strip). -/
theorem extractTextFromHtml_no_triple (html : Str) :
    hasTripleNl (extractTextFromHtml html) = false := by
  simp only [extractTextFromHtml]
  exact triple_trim _ (collapseNlAux_no_triple _ 0)

/-! ## C10: existing-id fallback derivation -/

theorem takeWhile_ne_dash_append (docId suffix : Str) (hdash : '-' ∈ docId) :
    (docId ++ suffix).takeWhile (fun c => c != '-') =
      docId.takeWhile (fun c => c != '-') := by
  induction docId with
  | nil => cases hdash
  | cons c ds ih =>
    by_cases hc : c = '-'
    · subst hc
      simp [List.takeWhile_cons]
    · have hdash2 : '-' ∈ ds := by
        rcases List.mem_cons.mp hdash with h | h
        · exact absurd h.symm hc
        · exact h
      simp only [List.cons_append, List.takeWhile_cons]
      have hb : (c != '-') = true := by simpa using hc
      rw [hb]
      simp only [if_true]
      rw [ih hdash2]

/-- C10: when a vector has no doc_id metadata, the fallback takes the part
of the record id before the first dash; for a document id containing a dash
(record ids being docId-header / docId-chunk-i), the derived id is a strict
prefix differing from the true id, and such a document is never recognized
as existing by the deduplication set. -/
theorem fetchExisting_dash_fallback (docId : Str) (hdash : '-' ∈ docId) :
    (∃ rest, rest ≠ [] ∧ docId = docId.takeWhile (fun c => c != '-') ++ rest) ∧
    (∀ suffix x, deriveDocId ⟨docId ++ suffix, none⟩ = some x →
      x = docId.takeWhile (fun c => c != '-') ∧ x ≠ docId) ∧
    (∀ ms : List PineMatch,
      (∀ m ∈ ms, m.docId = none ∧ ∃ d s2, m.id = d ++ s2 ∧ '-' ∈ d) →
      docId ∉ existingIdsFromMatches ms) := by
  have hsplit : docId.takeWhile (fun c => c != '-') ++
      docId.dropWhile (fun c => c != '-') = docId :=
    List.takeWhile_append_dropWhile _ _
  have hrest : docId.dropWhile (fun c => c != '-') ≠ [] := by
    intro hnil
    have hall := List.dropWhile_eq_nil_iff.mp hnil
    have := hall '-' hdash
    simp at this
  have hstrict : ∀ x, x = docId.takeWhile (fun c => c != '-') → x ≠ docId := by
    intro x hx heq
    have hlen := congrArg List.length hsplit
    rw [List.length_append] at hlen
    have hlen2 : docId.dropWhile (fun c => c != '-') ≠ [] := hrest
    have hpos : 0 < (docId.dropWhile (fun c => c != '-')).length :=
      List.length_pos.mpr hlen2
    have : x.length = docId.length := by rw [heq]
    rw [hx] at this
    omega
  refine ⟨⟨docId.dropWhile (fun c => c != '-'), hrest, hsplit.symm⟩, ?_, ?_⟩
  · intro suffix x hx
    simp only [deriveDocId, dashHead] at hx
    rw [takeWhile_ne_dash_append docId suffix hdash] at hx
    by_cases he : (docId.takeWhile (fun c => c != '-')).isEmpty
    · rw [if_pos he] at hx
      cases hx
    · rw [if_neg he] at hx
      have hx2 : docId.takeWhile (fun c => c != '-') = x := by
        injection hx
      exact ⟨hx2.symm, hstrict x hx2.symm⟩
  · intro ms hms hmem
    rcases List.mem_filterMap.mp hmem with ⟨m, hm, hder⟩
    rcases hms m hm with ⟨hnone, d, s2, hid, hd⟩
    simp only [deriveDocId, hnone, dashHead] at hder
    by_cases he : (m.id.takeWhile (fun c => c != '-')).isEmpty
    · rw [if_pos he] at hder
      cases hder
    · rw [if_neg he] at hder
      have hder2 : m.id.takeWhile (fun c => c != '-') = docId := by
        injection hder
      rw [← hder2] at hdash
      have := List.mem_takeWhile_imp hdash
      simp at this

/-- Witness for C10 at a concrete store state. -/
theorem fetchExisting_dash_fallback_witness :
    ('-' ∈ (("a-b" : String).data)) ∧
    (("a-b" : String).data ∉
      existingIdsFromMatches [⟨("a-b-header" : String).data, none⟩]) := by
  refine ⟨by decide, ?_⟩
  refine (fetchExisting_dash_fallback (("a-b" : String).data) (by decide)).2.2
    [⟨("a-b-header" : String).data, none⟩] ?_
  intro m hm
  have hm2 : m = (⟨("a-b-header" : String).data, none⟩ : PineMatch) := by
    simpa using hm
  subst hm2
  exact ⟨rfl, ("a-b" : String).data, ("-header" : String).data, by decide, by decide⟩

/-! ## C9: the query rewriter -/

/-- C9: on any failure (LLM error, missing brace block, JSON parse failure,
missing Optimized Query field) the rewriter returns the raw query unchanged;
and every result is either the raw query or exactly the three labeled lines
separated by blank lines. -/
theorem generateEnhancedQuery_spec (llm : Except Unit Str)
    (jsonParse : Str → Option GeminiParsed) (rawQuery : Str) :
    (∀ e, llm = Except.error e →
      generateEnhancedQuery llm jsonParse rawQuery = rawQuery) ∧
    (∀ resp, llm = Except.ok resp → extractBraceBlock resp = none →
      generateEnhancedQuery llm jsonParse rawQuery = rawQuery) ∧
    (∀ resp block, llm = Except.ok resp → extractBraceBlock resp = some block →
      jsonParse (normalizeQuotes block) = none →
      generateEnhancedQuery llm jsonParse rawQuery = rawQuery) ∧
    (∀ resp block parsed, llm = Except.ok resp → extractBraceBlock resp = some block →
      jsonParse (normalizeQuotes block) = some parsed →
      parsed.optimizedQuery = none →
      generateEnhancedQuery llm jsonParse rawQuery = rawQuery) ∧
    (generateEnhancedQuery llm jsonParse rawQuery = rawQuery ∨
      ∃ o r t, generateEnhancedQuery llm jsonParse rawQuery = labeledLines o r t) := by
  refine ⟨?_, ?_, ?_, ?_, ?_⟩
  · intro e he; subst he; rfl
  · intro resp h1 h2; subst h1; simp [generateEnhancedQuery, h2]
  · intro resp block h1 h2 h3; subst h1; simp [generateEnhancedQuery, h2, h3]
  · intro resp block parsed h1 h2 h3 h4; subst h1
    simp [generateEnhancedQuery, h2, h3, h4]
  · cases llm with
    | error e => exact Or.inl rfl
    | ok resp =>
      cases hb : extractBraceBlock resp with
      | none => exact Or.inl (by simp [generateEnhancedQuery, hb])
      | some block =>
        cases hj : jsonParse (normalizeQuotes block) with
        | none => exact Or.inl (by simp [generateEnhancedQuery, hb, hj])
        | some parsed =>
          cases ho : parsed.optimizedQuery with
          | none => exact Or.inl (by simp [generateEnhancedQuery, hb, hj, ho])
          | some oqRaw =>
            by_cases he : (trim oqRaw).isEmpty
            · exact Or.inl (by simp [generateEnhancedQuery, hb, hj, ho, he])
            · refine Or.inr ⟨trim oqRaw,
                joinSep ((", " : String).data) (parsed.relatedTopics.getD []),
                joinSep ((", " : String).data) (parsed.tags.getD []), ?_⟩
              simp [generateEnhancedQuery, hb, hj, ho, he]

/-- Witness for C9: a failing LLM call degrades to the raw query. -/
theorem generateEnhancedQuery_spec_witness :
    generateEnhancedQuery (Except.error ()) (fun _ => none)
      (("hello" : String).data) = ("hello" : String).data :=
  (generateEnhancedQuery_spec (Except.error ()) (fun _ => none)
    (("hello" : String).data)).1 () rfl

/-! ## C8: the embedding client -/

theorem specSplitPoint_eq_splitIdx (text : Str) : specSplitPoint text = splitIdx text := rfl

theorem avgVec_eq_zipWith (vL vR : List ℚ) (h : vL.length = vR.length) :
    avgVec vL vR = List.zipWith (fun a b => (a + b) / 2) vL vR := by
  induction vL generalizing vR with
  | nil => simp [avgVec]
  | cons a as ih =>
    cases vR with
    | nil => simp at h
    | cons b bs =>
      simp only [List.length_cons, Nat.succ.injEq] at h
      simp [avgVec, List.zipWith, ih bs h]

/-- C8: `safeEmbed` pads a successful vector shorter than dim with zeros
(longer vectors pass through), re-throws non-context-length errors, and on a
context-length (400) error splits at the latest dot before the character
midpoint (raw midpoint when none lies past the first 100 characters) and
returns the component-wise average of the two recursively embedded halves. -/
theorem safeEmbed_spec (service : Str → Except EmbErr (List ℚ))
    (fuel : Nat) (text : Str) (dim : Nat) :
    (∀ v, service text = Except.ok v →
      safeEmbed service (fuel + 1) text dim =
        some (Except.ok
          (if v.length < dim then v ++ List.replicate (dim - v.length) 0 else v))) ∧
    (∀ e, service text = Except.error e → e.status ≠ 400 →
      safeEmbed service (fuel + 1) text dim = some (Except.error e)) ∧
    (∀ e vL vR, service text = Except.error e → e.status = 400 →
      safeEmbed service fuel (trim (text.take (specSplitPoint text))) dim =
        some (Except.ok vL) →
      safeEmbed service fuel (trim (text.drop (specSplitPoint text))) dim =
        some (Except.ok vR) →
      vL.length = vR.length →
      safeEmbed service (fuel + 1) text dim =
        some (Except.ok (List.zipWith (fun a b => (a + b) / 2) vL vR))) := by
  refine ⟨?_, ?_, ?_⟩
  · intro v hv
    simp [safeEmbed, generateEmbeddings, hv]
  · intro e he hne
    simp [safeEmbed, generateEmbeddings, he, hne]
  · intro e vL vR he h400 hL hR hlen
    rw [specSplitPoint_eq_splitIdx] at hL hR
    simp only [safeEmbed, generateEmbeddings, he, h400, if_true, hL, hR]
    rw [avgVec_eq_zipWith vL vR hlen]

/-- Witness for C8: a text overflowing the context splits into two halves
that embed directly; the result is their average. -/
theorem safeEmbed_spec_witness :
    safeEmbed embSvc0 2 (("abcdef" : String).data) 2 = some (Except.ok [1, 2]) := by
  have h := (safeEmbed_spec embSvc0 1 (("abcdef" : String).data) 2).2.2
    ⟨400⟩ [1, 2] [1, 2] rfl rfl rfl rfl rfl
  rw [h]
  norm_num [List.zipWith]

/-! ## C3: the two-stage retriever -/

theorem mem_queryStore (scoreOf : VRec → ℚ) (pred : VRec → Bool) (topK : Nat)
    (store : List VRec) (r : VRec) (h : r ∈ queryStore scoreOf pred topK store) :
    r ∈ store ∧ pred r = true := by
  have h2 : r ∈ sortDescBy scoreOf (store.filter pred) := (List.take_sublist _ _).mem h
  have h3 : r ∈ store.filter pred := (perm_sortDescBy scoreOf _).mem_iff.mp h2
  exact ⟨List.mem_of_mem_filter h3, List.of_mem_filter h3⟩

theorem nodup_queryStore (scoreOf : VRec → ℚ) (pred : VRec → Bool) (topK : Nat)
    (store : List VRec) (h : (store.map (fun r => r.id)).Nodup) :
    ((queryStore scoreOf pred topK store).map (fun r => r.id)).Nodup := by
  have h1 : ((store.filter pred).map (fun r => r.id)).Nodup :=
    h.sublist ((List.filter_sublist _).map _)
  have h2 : ((sortDescBy scoreOf (store.filter pred)).map (fun r => r.id)).Nodup :=
    (((perm_sortDescBy scoreOf _).map (fun r => r.id)).nodup_iff).mpr h1
  exact h2.sublist ((List.take_sublist _ _).map _)

/-- C3: the retriever returns at most topK records, each with score ≥
minScore and a doc_id appearing in the header-pass candidate set; the
returned records are distinct by id when the store's ids are; and an empty
candidate set yields the empty result (a success, not an error). -/
theorem hybridSearch_spec (scoreOf : VRec → ℚ) (topK : Nat) (minScore : ℚ)
    (store : List VRec) :
    (hybridSearchCore scoreOf topK minScore store).length ≤ topK ∧
    (∀ r ∈ hybridSearchCore scoreOf topK minScore store, minScore ≤ scoreOf r) ∧
    (∀ r ∈ hybridSearchCore scoreOf topK minScore store,
      ∃ d, r.docId = some d ∧ d ∈ headerCandidates scoreOf store) ∧
    ((store.map (fun r => r.id)).Nodup →
      ((hybridSearchCore scoreOf topK minScore store).map (fun r => r.id)).Nodup) ∧
    (headerCandidates scoreOf store = [] →
      hybridSearchCore scoreOf topK minScore store = [] ∧
      hybridSearch scoreOf topK minScore store = []) ∧
    (hybridSearch scoreOf topK minScore store).length ≤ topK ∧
    (∀ m ∈ hybridSearch scoreOf topK minScore store, minScore ≤ m.score) := by
  by_cases hempty : (headerCandidates scoreOf store).isEmpty
  · refine ⟨?_, ?_, ?_, ?_, ?_, ?_, ?_⟩
    · simp [hybridSearchCore, hempty]
    · intro r hr; simp [hybridSearchCore, hempty] at hr
    · intro r hr; simp [hybridSearchCore, hempty] at hr
    · intro _; simp [hybridSearchCore, hempty]
    · intro _
      constructor
      · simp [hybridSearchCore, hempty]
      · simp [hybridSearch, hybridSearchCore, hempty]
    · simp [hybridSearch, hybridSearchCore, hempty]
    · intro m hm
      simp [hybridSearch, hybridSearchCore, hempty] at hm
  · have hmem_core : ∀ r ∈ hybridSearchCore scoreOf topK minScore store,
        r ∈ queryStore scoreOf
          (fun r =>
            (match r.docId with
             | some d => (headerCandidates scoreOf store).contains d
             | none => false) && (r.headerFlag == some false))
          (topK * 2) store ∧
        (scoreOf r ≠ 0 ∧ minScore ≤ scoreOf r) := by
      intro r hr
      simp only [hybridSearchCore, if_neg hempty] at hr
      have h2 := (List.take_sublist _ _).mem hr
      refine ⟨List.mem_of_mem_filter h2, ?_⟩
      have h3 := List.of_mem_filter h2
      exact of_decide_eq_true h3
    refine ⟨?_, ?_, ?_, ?_, ?_, ?_, ?_⟩
    · simp only [hybridSearchCore, if_neg hempty]
      exact List.length_take_le topK _
    · intro r hr
      exact (hmem_core r hr).2.2
    · intro r hr
      have h4 := (mem_queryStore _ _ _ _ r (hmem_core r hr).1).2
      rcases Bool.and_eq_true_iff.mp h4 with ⟨hdoc, -⟩
      cases hdocid : r.docId with
      | none => rw [hdocid] at hdoc; cases hdoc
      | some d =>
        rw [hdocid] at hdoc
        exact ⟨d, rfl, by simpa using hdoc⟩
    · intro hnodup
      simp only [hybridSearchCore, if_neg hempty]
      have h5 := nodup_queryStore scoreOf
        (fun r =>
          (match r.docId with
           | some d => (headerCandidates scoreOf store).contains d
           | none => false) && (r.headerFlag == some false))
        (topK * 2) store hnodup
      exact (h5.sublist ((List.filter_sublist _).map _)).sublist
        ((List.take_sublist _ _).map _)
    · intro h
      rw [h] at hempty
      simp at hempty
    · simp only [hybridSearch, List.length_map, hybridSearchCore, if_neg hempty]
      exact List.length_take_le topK _
    · intro m hm
      rcases List.mem_map.mp hm with ⟨r, hr, rfl⟩
      exact (hmem_core r hr).2.2

/-- Witness for C3: a two-record store with distinct ids gives a result
distinct by id. -/
theorem hybridSearch_spec_witness :
    (store0.map (fun r => r.id)).Nodup ∧
    ((hybridSearchCore score2 2 (1 / 2) store0).map (fun r => r.id)).Nodup :=
  ⟨by decide, (hybridSearch_spec score2 2 (1 / 2) store0).2.2.2.1 (by decide)⟩

/-! ## C1 and C7: the semantic chunker -/

theorem hasNonWs_append (a b : Str) :
    hasNonWs (a ++ b) = (hasNonWs a || hasNonWs b) := by
  simp [hasNonWs, List.any_append]

theorem hasNonWs_reverse (s : Str) : hasNonWs s.reverse = hasNonWs s := by
  apply Bool.eq_iff_iff.mpr
  simp [hasNonWs, List.any_eq_true]

theorem hasNonWs_dropWhileWs (s : Str) :
    hasNonWs (s.dropWhile isWs) = hasNonWs s := by
  induction s with
  | nil => rfl
  | cons c cs ih =>
    rw [List.dropWhile_cons]
    by_cases h : isWs c = true
    · rw [if_pos h, ih]
      simp [hasNonWs, h]
    · rw [if_neg h]

theorem hasNonWs_trim (s : Str) : hasNonWs (trim s) = hasNonWs s := by
  unfold trim trimR trimL
  rw [hasNonWs_reverse, hasNonWs_dropWhileWs, hasNonWs_reverse, hasNonWs_dropWhileWs]

theorem hasNonWs_ne_nil (s : Str) (h : hasNonWs s = true) : s ≠ [] := by
  intro he
  subst he
  simp [hasNonWs] at h

theorem trim_ne_nil (s : Str) (h : hasNonWs s = true) : trim s ≠ [] :=
  hasNonWs_ne_nil _ (by rw [hasNonWs_trim]; exact h)

theorem trim_nil_of_allWs (s : Str) (h : hasNonWs s = false) : trim s = [] := by
  have hall : ∀ a ∈ s, isWs a = true := by
    intro a ha
    by_contra hc
    have : hasNonWs s = true := List.any_eq_true.mpr ⟨a, ha, by simpa using hc⟩
    rw [h] at this
    cases this
  have hL : trimL s = [] := List.dropWhile_eq_nil_iff.mpr hall
  unfold trim
  rw [hL]
  rfl

theorem hasNonWs_of_trim_ne_nil (s : Str) (h : trim s ≠ []) : hasNonWs s = true := by
  cases hh : hasNonWs s with
  | true => rfl
  | false => exact absurd (trim_nil_of_allWs s hh) h

theorem termCh_not_ws (c : Char) (h : isTermCh c = true) : isWs c = false := by
  rcases (by simpa [isTermCh] using h : (c = '.' ∨ c = '!') ∨ c = '?') with (h1 | h1) | h1 <;>
    subst h1 <;> decide

theorem sentAlt1_hasNonWs (s m rest : Str) (h : sentAlt1 s = some (m, rest)) :
    hasNonWs m = true := by
  revert h
  unfold sentAlt1
  intro h
  by_cases h1 : (s.takeWhile (fun c => !isTermCh c)).isEmpty
  · rw [if_pos h1] at h
    cases h
  · rw [if_neg h1] at h
    by_cases h2 : (((s.drop (s.takeWhile (fun c => !isTermCh c)).length)).takeWhile
        isTermCh).isEmpty
    · rw [if_pos h2] at h
      cases h
    · rw [if_neg h2] at h
      simp only [Option.some.injEq, Prod.mk.injEq] at h
      obtain ⟨hm, -⟩ := h
      have hp2 : ((s.drop (s.takeWhile (fun c => !isTermCh c)).length)).takeWhile
          isTermCh ≠ [] := by
        intro hnil
        rw [hnil] at h2
        exact h2 rfl
      rcases List.exists_mem_of_ne_nil _ hp2 with ⟨c, hc⟩
      have hterm : isTermCh c = true := List.mem_takeWhile_imp hc
      have hcnw : hasNonWs ((s.drop (s.takeWhile (fun c => !isTermCh c)).length).takeWhile
          isTermCh) = true :=
        List.any_eq_true.mpr ⟨c, hc, by simp [termCh_not_ws c hterm]⟩
      rw [← hm, hasNonWs_append, hasNonWs_append, hcnw]
      simp

theorem sentScan_hasNonWs : ∀ (fuel : Nat) (s : Str), ∀ m ∈ sentScan fuel s,
    hasNonWs m = true := by
  intro fuel
  induction fuel with
  | zero => intro s m hm; simp [sentScan] at hm
  | succ n ih =>
    intro s m hm
    cases s with
    | nil => simp [sentScan] at hm
    | cons c cs =>
      revert hm
      simp only [sentScan]
      cases halt : sentAlt1 (c :: cs) with
      | some pr =>
        intro hm
        rcases List.mem_cons.mp hm with hm | hm
        · subst hm
          exact sentAlt1_hasNonWs _ _ _ (by rw [halt])
        · exact ih _ _ hm
      | none =>
        by_cases hall : (c :: cs).all (fun d => !isWs d) = true
        · rw [if_pos hall]
          intro hm
          rcases List.mem_singleton.mp hm with rfl
          have hc : (!isWs c) = true := by
            have := List.all_eq_true.mp hall c (by simp)
            simpa using this
          exact List.any_eq_true.mpr ⟨c, by simp, hc⟩
        · rw [if_neg hall]
          intro hm
          exact ih _ _ hm

theorem splitSentences_hasNonWs (p : Str) (hp : hasNonWs p = true) :
    ∀ s ∈ splitSentences p, hasNonWs s = true := by
  intro s hs
  revert hs
  unfold splitSentences
  cases hscan : sentScan (p.length + 1) p with
  | nil =>
    intro hs
    rcases List.mem_singleton.mp hs with rfl
    exact hp
  | cons x xs =>
    intro hs
    rcases List.mem_map.mp hs with ⟨m, hm, rfl⟩
    rw [hasNonWs_trim]
    exact sentScan_hasNonWs _ _ m (by rw [hscan]; exact hm)

theorem mergeLoop_hasNonWs (tok : Str → Nat) (maxT : Nat) :
    ∀ fuel queue revParas out,
      (∀ q ∈ queue, hasNonWs q = true) →
      (∀ q ∈ revParas, hasNonWs q = true) →
      mergeLoop tok maxT fuel queue revParas = some out →
      ∀ q ∈ out, hasNonWs q = true := by
  intro fuel
  induction fuel with
  | zero => intro queue revParas out _ _ h; simp [mergeLoop] at h
  | succ n ih =>
    intro queue revParas out hq hr h
    cases queue with
    | nil =>
      simp only [mergeLoop, Option.some.injEq] at h
      subst h
      intro q hqmem
      exact hr q (List.mem_reverse.mp hqmem)
    | cons p qs =>
      have hp : hasNonWs p = true := hq p (by simp)
      have hqs : ∀ q ∈ qs, hasNonWs q = true := fun q hmem => hq q (by simp [hmem])
      by_cases hbig : SINGLE_LIMIT < tok p
      · simp only [mergeLoop, if_pos hbig] at h
        refine ih _ _ _ ?_ hr h
        intro q hmem
        rcases List.mem_append.mp hmem with hmem | hmem
        · exact splitSentences_hasNonWs p hp q (List.mem_reverse.mp hmem)
        · exact hqs q hmem
      · cases revParas with
        | nil =>
          simp only [mergeLoop, if_neg hbig] at h
          refine ih _ _ _ hqs ?_ h
          intro q hmem
          rcases List.mem_singleton.mp hmem with rfl
          exact hp
        | cons last others =>
          have hlast : hasNonWs last = true := hr last (by simp)
          have hothers : ∀ q ∈ others, hasNonWs q = true :=
            fun q hmem => hr q (by simp [hmem])
          simp only [mergeLoop, if_neg hbig] at h
          by_cases hcand : tok (last ++ nl2 ++ p) ≤ maxT ∧
              tok (last ++ nl2 ++ p) ≤ SINGLE_LIMIT
          · rw [if_pos hcand] at h
            refine ih _ _ _ hqs ?_ h
            intro q hmem
            rcases List.mem_cons.mp hmem with rfl | hmem
            · rw [hasNonWs_append, hasNonWs_append, hlast]
              simp
            · exact hothers q hmem
          · rw [if_neg hcand] at h
            refine ih _ _ _ hqs ?_ h
            intro q hmem
            rcases List.mem_cons.mp hmem with rfl | hmem
            · exact hp
            · rcases List.mem_cons.mp hmem with rfl | hmem
              · exact hlast
              · exact hothers q hmem

theorem hasNonWs_joinSep (sep : Str) (l : List Str) (hne : l ≠ [])
    (h : ∀ x ∈ l, hasNonWs x = true) : hasNonWs (joinSep sep l) = true := by
  cases l with
  | nil => exact absurd rfl hne
  | cons x xs =>
    cases xs with
    | nil => exact h x (by simp)
    | cons y ys =>
      have hx : hasNonWs x = true := h x (by simp)
      simp only [joinSep]
      rw [hasNonWs_append, hasNonWs_append, hx]
      simp

theorem flushPush_nonempty (chunksRev current : List Str)
    (hc : ∀ c ∈ chunksRev, c ≠ []) (hcur : ∀ q ∈ current, hasNonWs q = true) :
    ∀ c ∈ flushPush chunksRev current, c ≠ [] := by
  intro c hcmem
  unfold flushPush at hcmem
  by_cases he : current.isEmpty
  · rw [if_pos he] at hcmem
    exact hc c hcmem
  · rw [if_neg he] at hcmem
    rcases List.mem_cons.mp hcmem with rfl | hcmem
    · apply trim_ne_nil
      apply hasNonWs_joinSep
      · intro hnil
        rw [hnil] at he
        exact he rfl
      · exact hcur
    · exact hc c hcmem

theorem chunkWalk_nonempty (tok : Str → Nat) (minT maxT : Nat) (thr : ℚ)
    (sim : Str → Str → ℚ) (windows : List Win) :
    ∀ paras chunksRev current curTok wPtr out,
      (∀ c ∈ chunksRev, c ≠ []) →
      (∀ q ∈ current, hasNonWs q = true) →
      (∀ q ∈ paras, hasNonWs q = true) →
      chunkWalk tok minT maxT thr sim windows paras chunksRev current curTok wPtr =
        some out →
      ∀ c ∈ out, c ≠ [] := by
  intro paras
  induction paras with
  | nil =>
    intro chunksRev current curTok wPtr out hc hcur _ h
    simp only [chunkWalk, Option.some.injEq] at h
    subst h
    intro c hcmem
    exact flushPush_nonempty chunksRev current hc hcur c (List.mem_reverse.mp hcmem)
  | cons p rest ih =>
    intro chunksRev current curTok wPtr out hc hcur hparas h
    have hp : hasNonWs p = true := hparas p (by simp)
    have hrest : ∀ q ∈ rest, hasNonWs q = true := fun q hmem => hparas q (by simp [hmem])
    have hcur2 : ∀ q ∈ current ++ [p], hasNonWs q = true := by
      intro q hmem
      rcases List.mem_append.mp hmem with hmem | hmem
      · exact hcur q hmem
      · rcases List.mem_singleton.mp hmem with rfl
        exact hp
    have hnilcur : ∀ q ∈ ([] : List Str), hasNonWs q = true := by
      intro q hq; cases hq
    by_cases hbig : maxT < tok p
    · simp only [chunkWalk, if_pos hbig] at h
      refine ih _ _ _ _ _ ?_ hnilcur hrest h
      intro c hcmem
      rcases List.mem_append.mp hcmem with hcmem | hcmem
      · rcases List.mem_reverse.mp hcmem with hcmem2
        rcases List.mem_map.mp hcmem2 with ⟨s, hs, rfl⟩
        have hsent : s ∈ splitSentences p := List.mem_of_mem_filter hs
        exact trim_ne_nil s (splitSentences_hasNonWs p hp s hsent)
      · exact flushPush_nonempty chunksRev current hc hcur c hcmem
    · simp only [chunkWalk, if_neg hbig] at h
      by_cases h1 : curTok + tok p < minT ∧ rest.isEmpty = false
      · rw [if_pos h1] at h
        exact ih _ _ _ _ _ hc hcur2 hrest h
      · rw [if_neg h1] at h
        by_cases h2 : maxT < curTok + tok p
        · rw [if_pos h2] at h
          exact ih _ _ _ _ _ (flushPush_nonempty _ _ hc hcur2) hnilcur hrest h
        · rw [if_neg h2] at h
          by_cases h3 : minT ≤ curTok + tok p ∧ rest.isEmpty = false
          · rw [if_pos h3] at h
            rcases hw : windows.get? wPtr with - | w
            · rw [hw] at h
              simp at h
            · rw [hw] at h
              simp only [] at h
              by_cases h4 : maxT < curTok + tok p + tok w.next
              · rw [if_pos h4] at h
                exact ih _ _ _ _ _ (flushPush_nonempty _ _ hc hcur2) hnilcur hrest h
              · rw [if_neg h4] at h
                by_cases h5 : sim w.curr w.next < thr
                · rw [if_pos h5] at h
                  exact ih _ _ _ _ _ (flushPush_nonempty _ _ hc hcur2) hnilcur hrest h
                · rw [if_neg h5] at h
                  exact ih _ _ _ _ _ hc hcur2 hrest h
          · rw [if_neg h3] at h
            exact ih _ _ _ _ _ hc hcur2 hrest h

/-- C1 (counterexample): with min_tokens 3 ≤ max_tokens 4, a 2-word buffer
(below min_tokens) absorbs a 3-word paragraph and is flushed as one chunk of
5 tokens > max_tokens that is not a single sentence without internal
punctuation.  The token measure is the word count (the gpt tokenizer is
external; the claim is quantified over texts and configurations, and the
same flush path runs for any measure). -/
theorem semanticChunks_exceeds_maxTokens :
    cfg1.minTokens ≤ cfg1.maxTokens ∧
    semanticChunksWithOverlap wc simOne cfg1 32 text1 = some [chunk1] ∧
    cfg1.maxTokens < wc chunk1 ∧
    singleSentenceNoInternalTerm chunk1 = false ∧
    chunk1 ≠ [] := by
  refine ⟨by decide, by decide, by decide, by decide, by decide⟩

/-- C1 (amended): every chunk a successful run of the semantic chunker
returns is non-empty; the max_tokens bound does not hold in general (a
buffer under min_tokens can absorb a paragraph and flush past max_tokens,
and with no valid window pair the merged paragraphs return as-is). -/
theorem semanticChunks_nonempty (tok : Str → Nat) (sim : Str → Str → ℚ)
    (cfg : ChunkCfg) (fuel : Nat) (text : Str) (out : List Str)
    (h : semanticChunksWithOverlap tok sim cfg fuel text = some out) :
    ∀ c ∈ out, c ≠ [] := by
  have hraw : ∀ p ∈ ((splitParas text).map trim).filter (fun p => !p.isEmpty),
      hasNonWs p = true := by
    intro p hp
    obtain ⟨hmem, hne⟩ := List.mem_filter.mp hp
    rcases List.mem_map.mp hmem with ⟨x, -, rfl⟩
    have hnil : trim x ≠ [] := by
      intro hnil2
      rw [hnil2] at hne
      simp at hne
    rw [hasNonWs_trim]
    exact hasNonWs_of_trim_ne_nil x hnil
  simp only [semanticChunksWithOverlap] at h
  split at h
  · exact absurd h (by simp)
  · next paragraphs hm =>
    have hparas : ∀ q ∈ paragraphs, hasNonWs q = true :=
      mergeLoop_hasNonWs tok cfg.maxTokens fuel _ [] paragraphs hraw
        (by intro q hq; cases hq) hm
    split at h
    · injection h with h2
      subst h2
      intro c hcmem
      rcases List.mem_map.mp hcmem with ⟨q, hq, rfl⟩
      exact trim_ne_nil q (hparas q hq)
    · exact chunkWalk_nonempty tok cfg.minTokens cfg.maxTokens cfg.threshold sim _
        paragraphs [] [] 0 0 out (by intro c hcmem; cases hcmem)
        (by intro q hq; cases hq) hparas h

/-- Witness for the amended C1 theorem at the counterexample input. -/
theorem semanticChunks_nonempty_witness :
    semanticChunksWithOverlap wc simOne cfg1 32 text1 = some [chunk1] ∧
    chunk1 ≠ [] :=
  ⟨by decide,
   semanticChunks_nonempty wc simOne cfg1 32 text1 [chunk1] (by decide) chunk1 (by simp)⟩

theorem mem_flushPush (chunksRev current : List Str) (c : Str)
    (hc : c ∈ chunksRev) : c ∈ flushPush chunksRev current := by
  unfold flushPush
  by_cases he : current.isEmpty
  · rw [if_pos he]; exact hc
  · rw [if_neg he]; exact List.mem_cons_of_mem _ hc

theorem chunkWalk_acc_mem (tok : Str → Nat) (minT maxT : Nat) (thr : ℚ)
    (sim : Str → Str → ℚ) (windows : List Win) :
    ∀ paras chunksRev current curTok wPtr out,
      chunkWalk tok minT maxT thr sim windows paras chunksRev current curTok wPtr =
        some out →
      ∀ c ∈ chunksRev, c ∈ out := by
  intro paras
  induction paras with
  | nil =>
    intro chunksRev current curTok wPtr out h c hc
    simp only [chunkWalk, Option.some.injEq] at h
    subst h
    rw [List.mem_reverse]
    exact mem_flushPush chunksRev current c hc
  | cons p rest ih =>
    intro chunksRev current curTok wPtr out h c hc
    by_cases hbig : maxT < tok p
    · simp only [chunkWalk, if_pos hbig] at h
      refine ih _ _ _ _ _ h c ?_
      exact List.mem_append.mpr (Or.inr (mem_flushPush chunksRev current c hc))
    · simp only [chunkWalk, if_neg hbig] at h
      by_cases h1 : curTok + tok p < minT ∧ rest.isEmpty = false
      · rw [if_pos h1] at h
        exact ih _ _ _ _ _ h c hc
      · rw [if_neg h1] at h
        by_cases h2 : maxT < curTok + tok p
        · rw [if_pos h2] at h
          exact ih _ _ _ _ _ h c (mem_flushPush _ _ c hc)
        · rw [if_neg h2] at h
          by_cases h3 : minT ≤ curTok + tok p ∧ rest.isEmpty = false
          · rw [if_pos h3] at h
            rcases hw : windows.get? wPtr with - | w
            · rw [hw] at h
              simp at h
            · rw [hw] at h
              simp only [] at h
              by_cases h4 : maxT < curTok + tok p + tok w.next
              · rw [if_pos h4] at h
                exact ih _ _ _ _ _ h c (mem_flushPush _ _ c hc)
              · rw [if_neg h4] at h
                by_cases h5 : sim w.curr w.next < thr
                · rw [if_pos h5] at h
                  exact ih _ _ _ _ _ h c (mem_flushPush _ _ c hc)
                · rw [if_neg h5] at h
                  exact ih _ _ _ _ _ h c hc
          · rw [if_neg h3] at h
            exact ih _ _ _ _ _ h c hc

/-- C7 (counterexample): a merged paragraph of 5 tokens > max_tokens 3 whose
single sentence also exceeds max_tokens is dropped from the output rather
than emitted intact. -/
theorem semanticChunks_drops_oversize_sentence :
    mergeLoop wc cfg7.maxTokens 32
        (((splitParas text7).map trim).filter (fun p => !p.isEmpty)) [] =
      some [p7, ("a b c." : String).data, ("x y z." : String).data] ∧
    cfg7.maxTokens < wc p7 ∧
    splitSentences p7 = [p7] ∧
    semanticChunksWithOverlap wc simOne cfg7 32 text7 =
      some [("a b c." : String).data, ("x y z." : String).data] ∧
    trim p7 ∉ [("a b c." : String).data, ("x y z." : String).data] ∧
    p7 ∉ [("a b c." : String).data, ("x y z." : String).data] := by
  refine ⟨by decide, by decide, by decide, by decide, by decide, by decide⟩

/-- C7 (amended): when the walk meets a paragraph whose token length alone
exceeds max_tokens, it sentence-splits it and emits exactly the sentences
whose token length is within max_tokens (each trimmed); sentences still
exceeding max_tokens are omitted, not emitted.  Emission of the small
sentences is proved here; the omission is the counterexample. -/
theorem chunkWalk_emits_small_sentences (tok : Str → Nat) (minT maxT : Nat)
    (thr : ℚ) (sim : Str → Str → ℚ) (windows : List Win) :
    ∀ paras chunksRev current curTok wPtr out,
      chunkWalk tok minT maxT thr sim windows paras chunksRev current curTok wPtr =
        some out →
      ∀ p ∈ paras, maxT < tok p →
      ∀ s ∈ splitSentences p, tok s ≤ maxT → trim s ∈ out := by
  intro paras
  induction paras with
  | nil =>
    intro chunksRev current curTok wPtr out h p hp
    cases hp
  | cons p0 rest ih =>
    intro chunksRev current curTok wPtr out h p hp hbig s hs hsmall
    rcases List.mem_cons.mp hp with rfl | hp2
    · simp only [chunkWalk, if_pos hbig] at h
      refine chunkWalk_acc_mem tok minT maxT thr sim windows _ _ _ _ _ _ h (trim s) ?_
      refine List.mem_append.mpr (Or.inl ?_)
      rw [List.mem_reverse]
      exact List.mem_map.mpr ⟨s, List.mem_filter.mpr ⟨hs, by simpa using hsmall⟩, rfl⟩
    · by_cases hbig0 : maxT < tok p0
      · simp only [chunkWalk, if_pos hbig0] at h
        exact ih _ _ _ _ _ h p hp2 hbig s hs hsmall
      · simp only [chunkWalk, if_neg hbig0] at h
        by_cases h1 : curTok + tok p0 < minT ∧ rest.isEmpty = false
        · rw [if_pos h1] at h
          exact ih _ _ _ _ _ h p hp2 hbig s hs hsmall
        · rw [if_neg h1] at h
          by_cases h2 : maxT < curTok + tok p0
          · rw [if_pos h2] at h
            exact ih _ _ _ _ _ h p hp2 hbig s hs hsmall
          · rw [if_neg h2] at h
            by_cases h3 : minT ≤ curTok + tok p0 ∧ rest.isEmpty = false
            · rw [if_pos h3] at h
              rcases hw : windows.get? wPtr with - | w
              · rw [hw] at h
                simp at h
              · rw [hw] at h
                simp only [] at h
                by_cases h4 : maxT < curTok + tok p0 + tok w.next
                · rw [if_pos h4] at h
                  exact ih _ _ _ _ _ h p hp2 hbig s hs hsmall
                · rw [if_neg h4] at h
                  by_cases h5 : sim w.curr w.next < thr
                  · rw [if_pos h5] at h
                    exact ih _ _ _ _ _ h p hp2 hbig s hs hsmall
                  · rw [if_neg h5] at h
                    exact ih _ _ _ _ _ h p hp2 hbig s hs hsmall
            · rw [if_neg h3] at h
              exact ih _ _ _ _ _ h p hp2 hbig s hs hsmall

/-- Witness for the amended C7 theorem: an oversize two-sentence paragraph
whose small sentence is emitted. -/
theorem chunkWalk_emits_small_sentences_witness :
    chunkWalk wc 3 3 1 simOne [] [p8] [] [] 0 0 =
      some [("a b." : String).data] ∧
    trim (("a b." : String).data) ∈ [("a b." : String).data] := by
  refine ⟨by decide, ?_⟩
  exact chunkWalk_emits_small_sentences wc 3 3 1 simOne [] [p8] [] [] 0 0
    [("a b." : String).data] (by decide) p8 (by simp) (by decide)
    (("a b." : String).data) (by decide) (by decide)

end Spec2Proof
